import Mathlib

/-!
Verification of the segmentation discrete search space
(`discrete_search_space_segmentation.py`): the DAG node data model, the
`random_neighbor` domain sampler, the `rename_dag_node_list` node renamer,
and the three stochastic operators `random_sample`, `get_neighbors` and
`crossover`, plus the `get_arch_repr` encoder.

Randomness is modelled by explicit draw parameters: each `random.randint(a, b)`
draw becomes a value constrained (or folded by modular arithmetic) into
`[a, b]`, each `random.choice` an index into the candidate list, and each
`random.sample` an explicit list of indices.  The external collaborators
(`SegmentationNasModel` construction / `validate_forward`, `tensorwatch`
MAC measurement) are modelled as oracle functions supplied as parameters;
a Python exception raised by a collaborator is the oracle returning `none`.
Fallible control flow is `Except PyErr`.
-/

/-- A DAG node as the Python code represents it: a dict with keys
`name`, `op`, `scale`, `inputs`.  An entry of `inputs` is `none` for
Python `None` (crossover repair can store `None` in an inputs list). -/
structure Node where
  name : String
  op : String
  scale : Int
  inputs : List (Option String)
deriving DecidableEq, Inhabited, Repr

/-- Python truthiness of an inputs entry: `None` and the empty string are
falsy (`if inp_name` in `rename_dag_node_list`). -/
def pyTruthy : Option String → Bool
  | none => false
  | some s => s ≠ ""

/-- The string carried by an inputs entry (`""` for `None`). -/
def optStr : Option String → String
  | none => ""
  | some s => s

/-- The exceptions the modelled code can raise. -/
inductive PyErr where
  | assertionError
  | unboundLocalError
  | keyError
  | structuralError
deriving DecidableEq, Repr

/-! ### Decimal printing of naturals (Python `f'layer_{i}'`) -/

/-- The decimal digit character of `d` (for `d < 10`). -/
def digitChar10 : Nat → Char
  | 0 => '0' | 1 => '1' | 2 => '2' | 3 => '3' | 4 => '4'
  | 5 => '5' | 6 => '6' | 7 => '7' | 8 => '8' | _ => '9'

/-- The numeric value of a decimal digit character. -/
def digitVal10 (c : Char) : Nat :=
  if c = '0' then 0 else if c = '1' then 1 else if c = '2' then 2
  else if c = '3' then 3 else if c = '4' then 4 else if c = '5' then 5
  else if c = '6' then 6 else if c = '7' then 7 else if c = '8' then 8 else 9

/-- The decimal digits of `n`, most significant first, by structural
recursion on a fuel bound (so that concrete names kernel-reduce). -/
def natDigitsAux : Nat → Nat → List Char
  | 0, _ => []
  | fuel + 1, n =>
    if n < 10 then [digitChar10 n]
    else natDigitsAux fuel (n / 10) ++ [digitChar10 (n % 10)]

def natDigits (n : Nat) : List Char := natDigitsAux (n + 1) n

/-- Decimal rendering of a natural number, as Python `str(i)` renders it. -/
def natToString (n : Nat) : String := ⟨natDigits n⟩

theorem digitVal10_digitChar10 {d : Nat} (h : d < 10) :
    digitVal10 (digitChar10 d) = d := by
  interval_cases d <;> rfl

/-- Decoder used only to prove `natToString` injective. -/
def decodeDigits (cs : List Char) : Nat :=
  cs.foldl (fun a c => 10 * a + digitVal10 c) 0

theorem decodeDigits_append_one (xs : List Char) (c : Char) :
    decodeDigits (xs ++ [c]) = 10 * decodeDigits xs + digitVal10 c := by
  simp [decodeDigits, List.foldl_append]

theorem natDigitsAux_fuel {n : Nat} :
    ∀ {fuel : Nat}, n < fuel → natDigitsAux fuel n = natDigits n := by
  induction n using Nat.strong_induction_on with
  | _ n ih =>
    intro fuel hfuel
    match fuel with
    | f + 1 =>
      by_cases h : n < 10
      · simp [natDigits, natDigitsAux, h]
      · have hdiv : n / 10 < n := Nat.div_lt_self (by omega) (by omega)
        rw [natDigits, natDigitsAux, natDigitsAux]
        simp only [h, if_false]
        rw [ih (n / 10) hdiv (by omega), ih (n / 10) hdiv (by omega)]

theorem natDigits_lt {n : Nat} (h : n < 10) : natDigits n = [digitChar10 n] := by
  rw [natDigits, natDigitsAux]; simp [h]

theorem natDigits_ge {n : Nat} (h : ¬ n < 10) :
    natDigits n = natDigits (n / 10) ++ [digitChar10 (n % 10)] := by
  have hdiv : n / 10 < n := Nat.div_lt_self (by omega) (by omega)
  rw [natDigits, natDigitsAux]
  simp only [h, if_false]
  rw [natDigitsAux_fuel (by omega)]

theorem decodeDigits_natDigits (n : Nat) : decodeDigits (natDigits n) = n := by
  induction n using Nat.strong_induction_on with
  | _ n ih =>
    by_cases h : n < 10
    · rw [natDigits_lt h]
      simp [decodeDigits, digitVal10_digitChar10 h]
    · rw [natDigits_ge h, decodeDigits_append_one,
        ih (n / 10) (Nat.div_lt_self (by omega) (by omega)),
        digitVal10_digitChar10 (Nat.mod_lt _ (by omega))]
      omega

theorem natToString_inj {m n : Nat} (h : natToString m = natToString n) : m = n := by
  have hd : natDigits m = natDigits n := congrArg String.data h
  have := decodeDigits_natDigits m
  rw [hd, decodeDigits_natDigits n] at this
  omega

theorem natDigits_ne_nil (n : Nat) : natDigits n ≠ [] := by
  by_cases h : n < 10
  · rw [natDigits_lt h]; simp
  · rw [natDigits_ge h]; simp

/-! ### String plumbing -/

theorem strData_append (s t : String) : (s ++ t).data = s.data ++ t.data := by
  cases s; cases t; rfl

theorem strEq_of_data {s t : String} (h : s.data = t.data) : s = t := by
  cases s; cases t; exact congrArg String.mk h

theorem strData_eq_of_eq {s t : String} (h : s = t) : s.data = t.data := by
  rw [h]

/-! ### `random_neighbor` (value-domain sampler)

```python
def random_neighbor(param_values, current_value):
    param_values = sorted(copy.deepcopy(param_values))
    param2idx = {param: idx for idx, param in enumerate(param_values)}
    if current_value in param2idx:
        current_idx = param2idx[current_value]
    else:
        current_idx = param2idx[min(param2idx, key=lambda k: abs(k - current_value))]
    offset = random.randint(
        a=-1 if current_idx > 0 else 0,
        b=1 if current_idx < len(param_values) - 1 else 0)
    return param_values[current_idx + offset]
```
The `random.randint` draw is the explicit argument `offset`; `validOffset`
states the bounds the draw satisfies. -/

/-- `sorted(param_values)` (ascending, stable). -/
def sortedParams (l : List Int) : List Int := List.insertionSort (· ≤ ·) l

/-- The index a Python dict comprehension `{param: idx for idx, param in
enumerate(l)}` leaves a value at: the index of its last occurrence
(later duplicates overwrite earlier entries). -/
def param2idx : List Int → Int → Option Nat
  | [], _ => none
  | x :: rest, v =>
    match param2idx rest v with
    | some i => some (i + 1)
    | none => if x = v then some 0 else none

/-- The dict's key list, in insertion (first-occurrence) order. -/
def dictKeysAux : List Int → List Int → List Int
  | acc, [] => acc
  | acc, x :: rest => dictKeysAux (if x ∈ acc then acc else acc ++ [x]) rest

def dictKeys (l : List Int) : List Int := dictKeysAux [] l

/-- Python `min(keys, key=lambda k: abs(k - c))`: the first key of minimal
absolute difference (replace only on strictly smaller). -/
def minByAbs (c : Int) : Int → List Int → Int
  | best, [] => best
  | best, k :: rest =>
    minByAbs c (if (k - c).natAbs < (best - c).natAbs then k else best) rest

def closestKey (keys : List Int) (c : Int) : Int :=
  match keys with
  | [] => 0
  | k :: rest => minByAbs c k rest

/-- `current_idx` of `random_neighbor` over the sorted list `s`. -/
def currentIdxOf (s : List Int) (c : Int) : Nat :=
  match param2idx s c with
  | some i => i
  | none => (param2idx s (closestKey (dictKeys s) c)).getD 0

/-- Lower bound of the `random.randint` offset draw. -/
def offsetLo (cidx : Nat) : Int := if 0 < cidx then -1 else 0

/-- Upper bound of the `random.randint` offset draw
(`1 if current_idx < len(param_values) - 1 else 0`). -/
def offsetHi (cidx n : Nat) : Int := if cidx + 1 < n then 1 else 0

/-- The offset draw lies in the interval `random.randint` samples from. -/
def validOffset (domain : List Int) (current offset : Int) : Prop :=
  offsetLo (currentIdxOf (sortedParams domain) current) ≤ offset ∧
    offset ≤ offsetHi (currentIdxOf (sortedParams domain) current)
      (sortedParams domain).length

instance (domain : List Int) (current offset : Int) :
    Decidable (validOffset domain current offset) :=
  inferInstanceAs (Decidable (_ ∧ _))

/-- `random_neighbor`, the `random.randint` draw made explicit. -/
def random_neighbor (param_values : List Int) (current_value offset : Int) : Int :=
  (sortedParams param_values).getD
    (((currentIdxOf (sortedParams param_values) current_value : Nat) : Int)
      + offset).toNat 0

theorem param2idx_lt {l : List Int} {v : Int} {i : Nat}
    (h : param2idx l v = some i) : i < l.length := by
  induction l generalizing i with
  | nil => simp [param2idx] at h
  | cons x rest ih =>
    rw [param2idx] at h
    cases hr : param2idx rest v with
    | some j =>
      rw [hr] at h
      simp only [Option.some.injEq] at h
      have := ih hr
      simp [← h, List.length_cons]; omega
    | none =>
      rw [hr] at h
      by_cases hx : x = v <;> simp [hx] at h
      simp [← h]

theorem currentIdxOf_lt {s : List Int} (hs : s ≠ []) (c : Int) :
    currentIdxOf s c < s.length := by
  have hlen : 0 < s.length := List.length_pos.mpr hs
  rw [currentIdxOf]
  cases h1 : param2idx s c with
  | some i => exact param2idx_lt h1
  | none =>
    cases h2 : param2idx s (closestKey (dictKeys s) c) with
    | some i => simpa using param2idx_lt h2
    | none => simpa using hlen

theorem sortedParams_length (l : List Int) : (sortedParams l).length = l.length :=
  (List.perm_insertionSort _ l).length_eq

theorem sortedParams_mem {l : List Int} {x : Int} (h : x ∈ sortedParams l) : x ∈ l :=
  (List.perm_insertionSort _ l).mem_iff.mp h

/-- C7 theorem (both conjuncts of the claim): membership for every non-empty
domain and valid draw, and the singleton domain `[8]` always yields `8`. -/
theorem random_neighbor_in_domain :
    (∀ (l : List Int) (cur off : Int), l ≠ [] → validOffset l cur off →
      random_neighbor l cur off ∈ l) ∧
    (∀ (cur off : Int), validOffset [8] cur off →
      random_neighbor [8] cur off = 8) := by
  constructor
  · intro l cur off hl ⟨hlo, hhi⟩
    have hsne : sortedParams l ≠ [] := by
      intro h
      exact hl (List.length_eq_zero.mp (by rw [← sortedParams_length l, h]; rfl))
    have hc : currentIdxOf (sortedParams l) cur < (sortedParams l).length :=
      currentIdxOf_lt hsne cur
    set cidx := currentIdxOf (sortedParams l) cur with hcidx
    have hnonneg : (0 : Int) ≤ (cidx : Int) + off := by
      rw [offsetLo] at hlo
      by_cases h0 : 0 < cidx <;> simp [h0] at hlo <;> omega
    have hlt : ((cidx : Int) + off).toNat < (sortedParams l).length := by
      rw [offsetHi] at hhi
      by_cases h1 : cidx + 1 < (sortedParams l).length <;> simp [h1] at hhi <;> omega
    apply sortedParams_mem
    simp only [random_neighbor, ← hcidx]
    rw [List.getD_eq_getElem _ _ hlt]
    exact List.getElem_mem _
  · intro cur off hv
    obtain ⟨hlo, hhi⟩ := hv
    have hc : currentIdxOf (sortedParams [8]) cur = 0 := by
      rw [show sortedParams [8] = [8] from rfl, currentIdxOf]
      by_cases h : (8 : Int) = cur
      · simp [param2idx, h]
      · simp [param2idx, h, dictKeys, dictKeysAux, closestKey, minByAbs]
    rw [hc] at hlo hhi
    have hlo' : (0 : Int) ≤ off := by simpa [offsetLo] using hlo
    have hhi' : off ≤ 0 := by
      have he : offsetHi 0 (sortedParams [8]).length = 0 := by decide
      rw [he] at hhi; exact hhi
    have hoff : off = 0 := le_antisymm hhi' hlo'
    subst hoff
    simp only [random_neighbor, hc]
    decide

/-- C7 witness: the theorem applied at the concrete domains of the claim. -/
theorem random_neighbor_in_domain_witness :
    random_neighbor [8, 16, 24] 16 1 ∈ [8, 16, 24] ∧
      random_neighbor [8] 3 0 = 8 :=
  ⟨random_neighbor_in_domain.1 [8, 16, 24] 16 1 (by decide) (by decide),
   random_neighbor_in_domain.2 3 0 (by decide)⟩

/-- C2 counterexample: the offset draw `0` lies in the sampled interval for
the interior anchor `16` of `[8, 16, 24]` (`random.randint(-1, 1)` includes
`0`), and the call then returns `16` — refuting "never returns 16". -/
theorem random_neighbor_can_stay_put :
    validOffset [8, 16, 24] 16 0 ∧ random_neighbor [8, 16, 24] 16 0 = 16 := by
  decide

/-- C2 amended: for domain `[8, 16, 24]` and current value `16`, every valid
draw returns `8`, `16` or `24` (one step left, one step right, or unchanged —
the offset `0` is possible in the interior too, not only at a boundary). -/
theorem random_neighbor_adjacent_16 (off : Int)
    (h : validOffset [8, 16, 24] 16 off) :
    random_neighbor [8, 16, 24] 16 off = 8 ∨
      random_neighbor [8, 16, 24] 16 off = 16 ∨
      random_neighbor [8, 16, 24] 16 off = 24 := by
  obtain ⟨hlo, hhi⟩ := h
  have e1 : offsetLo (currentIdxOf (sortedParams [8, 16, 24]) 16) = -1 := by decide
  have e2 : offsetHi (currentIdxOf (sortedParams [8, 16, 24]) 16)
      (sortedParams [8, 16, 24]).length = 1 := by decide
  rw [e1] at hlo
  rw [e2] at hhi
  interval_cases off
  · left; decide
  · right; left; decide
  · right; right; decide

/-- C2 amended witness. -/
theorem random_neighbor_adjacent_16_witness :
    random_neighbor [8, 16, 24] 16 (-1) = 8 ∨
      random_neighbor [8, 16, 24] 16 (-1) = 16 ∨
      random_neighbor [8, 16, 24] 16 (-1) = 24 :=
  random_neighbor_adjacent_16 (-1) (by decide)

/-! ### `rename_dag_node_list` (node renamer)

```python
def rename_dag_node_list(node_list, prefix='', rename_input_output=True,
                         add_input_output=False):
    node_list = copy.deepcopy(node_list)
    prefix = prefix + '_' if prefix else ''
    rename_map = {}
    if not rename_input_output:
        rename_map = {'input': 'input', 'output': 'output'}
    for i, node in enumerate(node_list):
        if node['name'] not in rename_map:
            if add_input_output:
                new_name = ('input' if i == 0 else
                            'output' if i == len(node_list) - 1 else
                            prefix + f'layer_{i}')
            else:
                new_name = prefix + f'layer_{i}'
            rename_map[node['name']] = new_name
            node['name'] = new_name
        if node['inputs']:
            node['inputs'] = [rename_map[inp_name]
                              for inp_name in node['inputs']
                              if inp_name and inp_name in rename_map]
    return node_list
```
The dict `rename_map` is an association list with fresh keys prepended
(keys are inserted only when absent, so lookup order is immaterial). -/

/-- Dict lookup in the rename map. -/
def alookup : List (String × String) → String → Option String
  | [], _ => none
  | (k, v) :: rest, s => if k = s then some v else alookup rest s

/-- The new name given to the node at position `i` of `total`
(`prefix` already carries its trailing underscore). -/
def schemeName (pfx : String) (add_io : Bool) (i total : Nat) : String :=
  if add_io then
    if i = 0 then "input"
    else if i = total - 1 then "output"
    else pfx ++ "layer_" ++ natToString i
  else pfx ++ "layer_" ++ natToString i

/-- `node['inputs'] = [rename_map[n] for n in inputs if n and n in rename_map]`,
executed only when the list is non-empty (Python truthiness of the list;
the rewrite of an empty list is the empty list either way). -/
def renameInputs (m : List (String × String)) (inputs : List (Option String)) :
    List (Option String) :=
  if inputs = [] then inputs
  else inputs.filterMap (fun inp =>
    if pyTruthy inp then (alookup m (optStr inp)).map some else none)

/-- The `for i, node in enumerate(node_list)` loop. -/
def renameLoop (pfx : String) (add_io : Bool) (total : Nat) :
    List Node → Nat → List (String × String) → List Node
  | [], _, _ => []
  | node :: rest, i, m =>
    match alookup m node.name with
    | some _ =>
      { node with inputs := renameInputs m node.inputs } ::
        renameLoop pfx add_io total rest (i + 1) m
    | none =>
      { node with
          name := schemeName pfx add_io i total
          inputs := renameInputs ((node.name, schemeName pfx add_io i total) :: m)
            node.inputs } ::
        renameLoop pfx add_io total rest (i + 1)
          ((node.name, schemeName pfx add_io i total) :: m)

def rename_dag_node_list (node_list : List Node) (pfx : String)
    (rename_input_output : Bool := true) (add_input_output : Bool := false) :
    List Node :=
  renameLoop (if pfx = "" then "" else pfx ++ "_") add_input_output
    node_list.length node_list 0
    (if rename_input_output then []
     else [("input", "input"), ("output", "output")])

theorem alookup_cons (k₀ v₀ : String) (m : List (String × String)) (s : String) :
    alookup ((k₀, v₀) :: m) s = if k₀ = s then some v₀ else alookup m s := rfl

theorem renameLoop_length (pfx : String) (add_io : Bool) (total : Nat) :
    ∀ (L : List Node) (i : Nat) (m : List (String × String)),
      (renameLoop pfx add_io total L i m).length = L.length := by
  intro L
  induction L with
  | nil => intro i m; rfl
  | cons node rest ih =>
    intro i m
    rw [renameLoop]
    cases alookup m node.name <;> simp [ih]

theorem rename_length (L : List Node) (pfx : String) (rio add_io : Bool) :
    (rename_dag_node_list L pfx rio add_io).length = L.length := by
  rw [rename_dag_node_list]; apply renameLoop_length

/-- Every input reference surviving `renameLoop` is either a value the
incoming rename map already held, or the name of a node of the output. -/
theorem renameLoop_no_dangling (pfx : String) (add_io : Bool) (total : Nat) :
    ∀ (L : List Node) (i : Nat) (m : List (String × String)),
      ∀ nd ∈ renameLoop pfx add_io total L i m, ∀ inp ∈ nd.inputs, ∀ s, inp = some s →
        (∃ k, alookup m k = some s) ∨
          s ∈ (renameLoop pfx add_io total L i m).map (fun n => n.name) := by
  intro L
  induction L with
  | nil => intro i m nd h; simp [renameLoop] at h
  | cons node rest ih =>
    intro i m nd hnd inp hinp s hs
    rw [renameLoop] at hnd ⊢
    cases hm : alookup m node.name with
    | some v =>
      rw [hm] at hnd
      rcases List.mem_cons.mp hnd with h | h
      · -- the head node: every surviving input is a value of `m`
        subst h
        simp only at hinp
        rw [renameInputs] at hinp
        by_cases hemp : node.inputs = []
        · rw [hemp] at hinp; simp at hinp
        · simp only [hemp, if_false] at hinp
          obtain ⟨inp₀, _, hmap⟩ := List.mem_filterMap.mp hinp
          by_cases ht : pyTruthy inp₀
          · simp only [ht, if_true] at hmap
            obtain ⟨v₀, hv₀, hvv⟩ := Option.map_eq_some'.mp hmap
            exact Or.inl ⟨optStr inp₀, by rw [hv₀, hvv, hs]⟩
          · simp [ht] at hmap
      · rcases ih (i + 1) m nd h inp hinp s hs with hl | hr
        · exact Or.inl hl
        · exact Or.inr (by simp only [hm, List.map_cons]; exact List.mem_cons_of_mem _ hr)
    | none =>
      rw [hm] at hnd
      rcases List.mem_cons.mp hnd with h | h
      · subst h
        simp only at hinp
        rw [renameInputs] at hinp
        by_cases hemp : node.inputs = []
        · rw [hemp] at hinp; simp at hinp
        · simp only [hemp, if_false] at hinp
          obtain ⟨inp₀, _, hmap⟩ := List.mem_filterMap.mp hinp
          by_cases ht : pyTruthy inp₀
          · simp only [ht, if_true] at hmap
            obtain ⟨v₀, hv₀, hvv⟩ := Option.map_eq_some'.mp hmap
            rw [hs] at hvv
            rw [alookup_cons] at hv₀
            by_cases hk : node.name = optStr inp₀
            · rw [if_pos hk] at hv₀
              apply Or.inr
              simp only [hm, List.map_cons, List.mem_cons]
              left
              injection hv₀ with h2
              injection hvv with h3
              show s = schemeName pfx add_io i total
              rw [← h3, ← h2]
            · rw [if_neg hk] at hv₀
              exact Or.inl ⟨optStr inp₀, hv₀.trans hvv⟩
          · simp [ht] at hmap
      · rcases ih (i + 1) ((node.name, schemeName pfx add_io i total) :: m) nd h
            inp hinp s hs with hl | hr
        · obtain ⟨k, hk⟩ := hl
          rw [alookup_cons] at hk
          by_cases hkk : node.name = k
          · rw [if_pos hkk] at hk
            apply Or.inr
            simp only [hm, List.map_cons, List.mem_cons]
            left
            injection hk with h2
            show s = schemeName pfx add_io i total
            exact h2.symm
          · rw [if_neg hkk] at hk
            exact Or.inl ⟨k, hk⟩
        · exact Or.inr (by simp only [hm, List.map_cons]; exact List.mem_cons_of_mem _ hr)

/-- C6 amended: with `rename_input_output = True` (as every call in the
repository passes it), `rename_dag_node_list` never leaves a dangling input
reference: every surviving input names a node of the returned list.  With
`rename_input_output = False` this fails (see the counterexample): the
pre-seeded sentinel entries let `'input'`/`'output'` survive even when no
node of the list carries that name. -/
theorem rename_no_dangling (L : List Node) (pfx : String) (add_io : Bool) :
    ∀ nd ∈ rename_dag_node_list L pfx true add_io, ∀ inp ∈ nd.inputs,
      ∀ s, inp = some s →
        s ∈ (rename_dag_node_list L pfx true add_io).map (fun n => n.name) := by
  intro nd hnd inp hinp s hs
  rw [rename_dag_node_list] at hnd ⊢
  simp only [if_true] at hnd ⊢
  rcases renameLoop_no_dangling _ add_io L.length L 0 [] nd hnd inp hinp s hs with hl | hr
  · obtain ⟨k, hk⟩ := hl
    simp [alookup] at hk
  · exact hr

/-- C6 amended witness: a concrete renaming where the surviving reference
names a node of the output. -/
theorem rename_no_dangling_witness :
    some ("layer_0") ∈
      ((rename_dag_node_list
        [⟨"input", "conv", 1, []⟩, ⟨"a", "conv", 1, [some ("input")]⟩]
        "" true false).getD 1 default).inputs ∧
    ("layer_0") ∈
      (rename_dag_node_list
        [⟨"input", "conv", 1, []⟩, ⟨"a", "conv", 1, [some ("input")]⟩]
        "" true false).map (fun n => n.name) := by
  constructor
  · decide
  · exact rename_no_dangling
      [⟨"input", "conv", 1, []⟩, ⟨"a", "conv", 1, [some ("input")]⟩] "" false
      (((rename_dag_node_list
        [⟨"input", "conv", 1, []⟩, ⟨"a", "conv", 1, [some ("input")]⟩]
        "" true false).getD 1 default))
      (by decide) (some ("layer_0")) (by decide) ("layer_0") rfl

/-- C6 counterexample: with `rename_input_output = False` and a node list
holding no node named `input`, a reference to `input` survives the rewrite
(the pre-seeded map maps it to itself) yet no node of the returned list is
named `input` — a dangling reference, refuting the claim for every flag
combination. -/
theorem rename_dangling_counterexample :
    some ("input") ∈
      ((rename_dag_node_list [⟨"a", "conv", 1, [some ("input")]⟩]
        "" false false).getD 0 default).inputs ∧
    ("input") ∉
      (rename_dag_node_list [⟨"a", "conv", 1, [some ("input")]⟩]
        "" false false).map (fun n => n.name) := by
  decide

/-! ### Data model and external-collaborator oracles

`SegmentationNasModel` and `tensorwatch` are external collaborators
(imported from outside this file's source): a compiled model is opaque
except for the fields the search-space code reads (`graph`,
`channels_per_scale`, `post_upsample_layers`, `edge_dict` keys split into
pairs, `img_size`, `to_hash()`), and construction / `validate_forward` /
MAC measurement are oracle functions.  `none` from an oracle models the
collaborator raising an exception. -/

/-- `channels_per_scale`: the three keys the search-space code touches. -/
structure Channels where
  base_channels : Int
  delta_channels : Int
  mult_delta : Bool
deriving DecidableEq, Inhabited, Repr

/-- The fields of a compiled `SegmentationNasModel` the search space reads. -/
structure SegModel where
  graph : List Node
  channels_per_scale : Channels
  post_upsample_layers : Int
  edges : List (String × String)
  img_size : Int
  hashStr : String
deriving DecidableEq, Inhabited, Repr

/-- `ArchWithMetaData`: a model paired with its metadata record. -/
structure ArchMeta where
  arch : SegModel
  datasetname : String
  archid : String
  parent : Option String
  parents : Option String
  macs : Option Int
deriving DecidableEq, Inhabited, Repr

/-- The `DiscreteSearchSpaceSegmentation` configuration fields the modelled
operators read. -/
structure SearchSpaceCfg where
  datasetname : String
  operations : List String
  encoder_features : List String
  base_channels_list : List Int
  delta_channels_list : List Int
  post_upsample_layers_list : List Int
  min_mac : Int
  max_mac : Int
  min_layers : Int
  max_layers : Int
  img_size : Int
deriving Inhabited

/-- The external compiler and measurement collaborators.
`construct g ch post img` is `SegmentationNasModel(g, ch, post, img_size)`
(`none` = the constructor raised), `validate m` is
`m.validate_forward(...)` returning the output shape (`none` = it raised),
`macs m` is `tw.ModelStats(m, shape).MAdd`. -/
structure CompilerOracle where
  construct : List Node → Channels → Int → Int → Option SegModel
  validate : SegModel → Option (List Int)
  macs : SegModel → Int

/-! ### `get_neighbors` (mutation operator)

The loop body of `DiscreteSearchSpaceSegmentation.get_neighbors`, one
`NeighborDraws` record per attempt:
  * `baseOff`, `deltaOff`, `postOff`: the `random_neighbor` offset draws;
  * `nodeIdx`: `random.randint(1, len(graph) - 1)`, folded into range by
    `1 + nodeIdx % (len - 1)`;
  * `opIdx`: the `random.choice(self.operations)` index;
  * `kRand`: `random.randint(1, 3)`, folded by `1 + kRand % 3`;
  * `newInputIdxs`: `random.sample(range(chosen_node_idx), k)` (the first
    `k` entries are used).
The Python local variable `nbr_model` persists across loop iterations; the
`stale` argument of the loop carries its binding (`none` = never assigned),
because the `except` handler evaluates `nbr_model.to_hash()` in its log
message. -/

structure NeighborDraws where
  baseOff : Int
  deltaOff : Int
  postOff : Int
  nodeIdx : Nat
  opIdx : Nat
  kRand : Nat
  newInputIdxs : List Nat
deriving Inhabited

/-- `out_degree` over the edge pairs of `base_model.arch.edge_dict`. -/
def out_degree (edges : List (String × String)) (x : String) : Nat :=
  (edges.filter (fun e => e.1 = x)).length

/-- `out_degree(input)` for an inputs entry (`None` matches no edge). -/
def outDegreeOpt (edges : List (String × String)) : Option String → Nat
  | none => 0
  | some s => out_degree edges s

/-- Steps 3–4 of the loop body: pick a node (`chosen_node_idx`), replace its
operator unless it is `output`, and rewire its inputs unless it is `input`:
keep existing inputs of out-degree ≤ 1, then add up to `k` fresh inputs
drawn from strictly earlier positions, skipping names already present. -/
def mutateNode (operations : List String) (edges : List (String × String))
    (graph : List Node) (d : NeighborDraws) : List Node :=
  let idx := 1 + d.nodeIdx % (graph.length - 1)
  let node := graph.getD idx default
  let node := if node.name ≠ "output"
    then { node with op := operations.getD (d.opIdx % operations.length) "" }
    else node
  let node := if node.name ≠ "input" then
      let k := min idx (1 + d.kRand % 3)
      let kept := node.inputs.filter (fun inp => outDegreeOpt edges inp ≤ 1)
      let added := (d.newInputIdxs.take k).filterMap (fun j =>
        if (some (graph.getD j default).name) ∈ kept then none
        else some (some (graph.getD j default).name))
      { node with inputs := kept ++ added }
    else node
  graph.set idx node

/-- The metadata record appended for an accepted neighbor. -/
def mkNeighbor (cfg : SearchSpaceCfg) (parentId : String) (o : CompilerOracle)
    (m : SegModel) : ArchMeta :=
  { arch := m
    datasetname := cfg.datasetname
    archid := m.hashStr
    parent := some parentId
    parents := none
    macs := some (o.macs m) }

/-- Outcome of one attempt of the loop body (everything from the channel
mutation to the MAC check).  `raisedUnbound`: the model constructor raised
and `nbr_model` had never been assigned, so the handler's log line raises
`UnboundLocalError`.  `retry m`: the error was caught (or the MAC fell out
of range) and the loop continues with `nbr_model` bound to `m`.
`accept m`: the candidate was accepted. -/
inductive AttemptOutcome where
  | raisedUnbound
  | retry (m : SegModel)
  | accept (m : SegModel)

/-- One attempt of the loop body: mutate channels, `post_upsample_layers`
and the graph, compile and validate through the oracle (the `try` block),
then the MAC bound check. -/
def neighborAttempt (cfg : SearchSpaceCfg) (o : CompilerOracle)
    (base : ArchMeta) (d : NeighborDraws) (stale : Option SegModel) :
    AttemptOutcome :=
  match o.construct
    (mutateNode cfg.operations base.arch.edges base.arch.graph d)
    { base_channels := random_neighbor cfg.base_channels_list
        base.arch.channels_per_scale.base_channels d.baseOff
      delta_channels := random_neighbor cfg.delta_channels_list
        base.arch.channels_per_scale.delta_channels d.deltaOff
      mult_delta := base.arch.channels_per_scale.mult_delta }
    (random_neighbor cfg.post_upsample_layers_list
      base.arch.post_upsample_layers d.postOff)
    cfg.img_size with
  | none =>
    -- the constructor raised; the handler's log line reads `nbr_model`
    match stale with
    | none => .raisedUnbound
    | some prev => .retry prev
  | some nbr =>
    match o.validate nbr with
    | none => .retry nbr
    | some shape =>
      if shape ≠ [1, 19, nbr.img_size, nbr.img_size] then .retry nbr
      else if cfg.min_mac < o.macs nbr ∧ o.macs nbr < cfg.max_mac then .accept nbr
      else .retry nbr

/-- The `while nb_tries < patience and len(neighbors) == 0` loop; the first
component counts down the remaining budget, `tries` is `nb_tries`, and the
result carries the final `nb_tries` so attempt counting is observable. -/
def get_neighbors_go (cfg : SearchSpaceCfg) (o : CompilerOracle)
    (base : ArchMeta) (draws : Nat → NeighborDraws) :
    Nat → Nat → Option SegModel → Except PyErr (List ArchMeta × Nat)
  | 0, tries, _ => .ok ([], tries)
  | rem + 1, tries, stale =>
    if ¬ (base.arch.graph.length > 1) then .error .assertionError
    else if (base.arch.graph.getD (base.arch.graph.length - 1) default).name
        ≠ "output" then .error .assertionError
    else if (base.arch.graph.getD 0 default).name ≠ "input" then
      .error .assertionError
    else
      match neighborAttempt cfg o base (draws tries) stale with
      | .raisedUnbound => .error .unboundLocalError
      | .retry m => get_neighbors_go cfg o base draws rem (tries + 1) (some m)
      | .accept m => .ok ([mkNeighbor cfg base.archid o m], tries + 1)

def get_neighbors (cfg : SearchSpaceCfg) (o : CompilerOracle) (base : ArchMeta)
    (draws : Nat → NeighborDraws) (patience : Nat) :
    Except PyErr (List ArchMeta × Nat) :=
  get_neighbors_go cfg o base draws patience 0 none

/-! Concrete instances used by the evaluation theorems. -/

/-- A compiler stub that always fails (both construction and validation). -/
def alwaysFailOracle : CompilerOracle :=
  { construct := fun _ _ _ _ => none
    validate := fun _ => none
    macs := fun _ => 0 }

/-- A compiler stub whose constructor succeeds but whose
`validate_forward` always raises. -/
def validateFailOracle : CompilerOracle :=
  { construct := fun g c p i => some
      { graph := g, channels_per_scale := c, post_upsample_layers := p,
        edges := [], img_size := i, hashStr := "m" }
    validate := fun _ => none
    macs := fun _ => 0 }

def baseGraph3 : List Node :=
  [⟨"input", "conv3x3", 1, []⟩,
   ⟨"layer_1", "conv3x3", 1, [some ("input")]⟩,
   ⟨"output", "conv3x3", 1, [some ("layer_1")]⟩]

def baseModel3 : SegModel :=
  { graph := baseGraph3
    channels_per_scale := { base_channels := 8, delta_channels := 8, mult_delta := false }
    post_upsample_layers := 1
    edges := [("input", "layer_1"), ("layer_1", "output")]
    img_size := 256
    hashStr := "base3" }

def baseArch3 : ArchMeta :=
  { arch := baseModel3, datasetname := "ds", archid := "base3",
    parent := none, parents := none, macs := none }

def cfgDefault : SearchSpaceCfg :=
  { datasetname := "ds"
    operations := ["conv3x3", "conv5x5"]
    encoder_features := ["scale", "channels", "op"]
    base_channels_list := [8, 16, 24]
    delta_channels_list := [8, 16, 24]
    post_upsample_layers_list := [1, 2, 3]
    min_mac := 0
    max_mac := 1000000
    min_layers := 1
    max_layers := 12
    img_size := 256 }

/-- A degenerate base whose graph breaks the sanity assertions. -/
def badBase1 : ArchMeta :=
  { arch := { baseModel3 with graph := [⟨"input", "conv3x3", 1, []⟩] }
    datasetname := "ds", archid := "bad1",
    parent := none, parents := none, macs := none }

/-- C1 evaluation at the failing input: on a well-formed base, with a
compiler stub whose **constructor** always raises, `get_neighbors` does not
catch the failure — the `except` handler's log message evaluates
`nbr_model.to_hash()` while `nbr_model` was never assigned, so the very
first attempt raises `UnboundLocalError` to the caller instead of counting
the error against the retry budget and returning `[]`. -/
theorem get_neighbors_constructor_failure_raises :
    get_neighbors cfgDefault alwaysFailOracle baseArch3 (fun _ => default) 5 =
      .error .unboundLocalError := by
  rfl

/-- Supporting lemma for C1: when construction succeeds and every candidate
fails `validate_forward` (the error path the handler does survive), every
error is caught and counted, and the loop returns `([], patience)` — the
empty list after exactly `patience` attempts. -/
theorem get_neighbors_all_validate_fail (cfg : SearchSpaceCfg)
    (o : CompilerOracle) (base : ArchMeta) (draws : Nat → NeighborDraws)
    (hok : ∀ g c p i, o.construct g c p i ≠ none)
    (hval : ∀ m, o.validate m = none)
    (hlen : base.arch.graph.length > 1)
    (hout : (base.arch.graph.getD (base.arch.graph.length - 1) default).name = "output")
    (hin : (base.arch.graph.getD 0 default).name = "input") :
    ∀ (patience tries : Nat) (stale : Option SegModel),
      get_neighbors_go cfg o base draws patience tries stale =
        .ok ([], tries + patience) := by
  intro patience
  induction patience with
  | zero => intro tries stale; rfl
  | succ rem ih =>
    intro tries stale
    have hatt : ∀ st, ∃ m, neighborAttempt cfg o base (draws tries) st =
        .retry m := by
      intro st
      obtain ⟨m, hm⟩ := Option.ne_none_iff_exists'.mp
        (hok (mutateNode cfg.operations base.arch.edges base.arch.graph (draws tries))
          { base_channels := random_neighbor cfg.base_channels_list
              base.arch.channels_per_scale.base_channels (draws tries).baseOff
            delta_channels := random_neighbor cfg.delta_channels_list
              base.arch.channels_per_scale.delta_channels (draws tries).deltaOff
            mult_delta := base.arch.channels_per_scale.mult_delta }
          (random_neighbor cfg.post_upsample_layers_list
            base.arch.post_upsample_layers (draws tries).postOff)
          cfg.img_size)
      refine ⟨m, ?_⟩
      delta neighborAttempt
      rw [hm]
      simp only [hval]
    obtain ⟨m, hm⟩ := hatt stale
    rw [get_neighbors_go, hm]
    rw [if_neg (not_not_intro hlen), if_neg (not_not_intro hout),
      if_neg (not_not_intro hin)]
    show get_neighbors_go cfg o base draws rem (tries + 1) (some m) =
      Except.ok ([], tries + (rem + 1))
    rw [ih (tries + 1) (some m)]
    have harith : tries + 1 + rem = tries + (rem + 1) := by omega
    rw [harith]

/-- C10 theorem: the three sanity assertions (`len(graph) > 1`,
`graph[-1]['name'] == 'output'`, `graph[0]['name'] == 'input'`) run before
the `try` block, so a base violating any of them makes `get_neighbors`
raise an uncaught `AssertionError` (for any patience ≥ 1) rather than
retrying or returning `[]`. -/
theorem get_neighbors_asserts (cfg : SearchSpaceCfg) (o : CompilerOracle)
    (base : ArchMeta) (draws : Nat → NeighborDraws) (patience : Nat)
    (hp : 1 ≤ patience)
    (hbad : base.arch.graph.length ≤ 1 ∨
      (base.arch.graph.getD (base.arch.graph.length - 1) default).name ≠ "output" ∨
      (base.arch.graph.getD 0 default).name ≠ "input") :
    get_neighbors cfg o base draws patience = .error .assertionError := by
  obtain ⟨rem, rfl⟩ : ∃ rem, patience = rem + 1 := ⟨patience - 1, by omega⟩
  rw [get_neighbors, get_neighbors_go]
  by_cases h1 : base.arch.graph.length > 1
  · rw [if_neg (not_not_intro h1)]
    rcases hbad with h | h | h
    · omega
    · rw [if_pos h]
    · by_cases h2 : (base.arch.graph.getD (base.arch.graph.length - 1) default).name
          = "output"
      · rw [if_neg (not_not_intro h2), if_pos h]
      · rw [if_pos h2]
  · rw [if_pos h1]

/-- C10 witness: a one-node base raises the assertion immediately. -/
theorem get_neighbors_asserts_witness :
    get_neighbors cfgDefault alwaysFailOracle badBase1 (fun _ => default) 20 =
      .error .assertionError :=
  get_neighbors_asserts cfgDefault alwaysFailOracle badBase1 (fun _ => default) 20
    (by omega) (Or.inl (by decide))

/-! ### `random_sample`

```python
found_valid = False
while not found_valid:
    num_layers = random.randint(self.min_layers, self.max_layers)
    model = SegmentationNasModel.sample_model(...)
    model_stats = tw.ModelStats(model, input_tensor_shape, clone_model=True)
    if model_stats.MAdd > self.min_mac and model_stats.MAdd < self.max_mac:
        found_valid = True
    meta_data = {'datasetname': ..., 'archid': model.to_hash(),
                 'parent': None, 'macs': model_stats.MAdd}
    arch_meta = ArchWithMetaData(model, meta_data)
return arch_meta
```
The unbounded `while` is given an explicit fuel; `none` means the fuel ran
out before a candidate satisfied the MAC bound (the Python loop would still
be running).  `sample_model` is an oracle indexed by the drawn layer count
and the iteration number; `macs` is the `tw.ModelStats(...).MAdd` oracle. -/

structure SampleOracle where
  sample_model : Int → Nat → SegModel
  macs : SegModel → Int

/-- The metadata record built each iteration (`parent = None`). -/
def mkSampleMeta (cfg : SearchSpaceCfg) (o : SampleOracle) (m : SegModel) :
    ArchMeta :=
  { arch := m
    datasetname := cfg.datasetname
    archid := m.hashStr
    parent := none
    parents := none
    macs := some (o.macs m) }

def random_sample_go (cfg : SearchSpaceCfg) (o : SampleOracle)
    (numLayers : Nat → Int) : Nat → Nat → Option ArchMeta
  | 0, _ => none
  | fuel + 1, iter =>
    if cfg.min_mac < o.macs (o.sample_model (numLayers iter) iter) ∧
        o.macs (o.sample_model (numLayers iter) iter) < cfg.max_mac then
      some (mkSampleMeta cfg o (o.sample_model (numLayers iter) iter))
    else random_sample_go cfg o numLayers fuel (iter + 1)

def random_sample (cfg : SearchSpaceCfg) (o : SampleOracle)
    (numLayers : Nat → Int) (fuel : Nat) : Option ArchMeta :=
  random_sample_go cfg o numLayers fuel 0

/-- C3 theorem: whenever `random_sample` returns an architecture, its
measured MAC cost lies strictly between `min_mac` and `max_mac`, its
metadata records that measured cost, and its `parent` is `None`. -/
theorem random_sample_bounds (cfg : SearchSpaceCfg) (o : SampleOracle)
    (numLayers : Nat → Int) (fuel : Nat) (am : ArchMeta)
    (h : random_sample cfg o numLayers fuel = some am) :
    cfg.min_mac < o.macs am.arch ∧ o.macs am.arch < cfg.max_mac ∧
      am.macs = some (o.macs am.arch) ∧ am.parent = none := by
  rw [random_sample] at h
  have : ∀ (fuel iter : Nat),
      random_sample_go cfg o numLayers fuel iter = some am →
        cfg.min_mac < o.macs am.arch ∧ o.macs am.arch < cfg.max_mac ∧
          am.macs = some (o.macs am.arch) ∧ am.parent = none := by
    intro fuel
    induction fuel with
    | zero => intro iter h0; simp [random_sample_go] at h0
    | succ f ih =>
      intro iter h0
      rw [random_sample_go] at h0
      by_cases hb : cfg.min_mac < o.macs (o.sample_model (numLayers iter) iter) ∧
          o.macs (o.sample_model (numLayers iter) iter) < cfg.max_mac
      · rw [if_pos hb] at h0
        have ham : am = mkSampleMeta cfg o (o.sample_model (numLayers iter) iter) :=
          ((Option.some.injEq _ _).mp h0.symm)
        subst ham
        exact ⟨hb.1, hb.2, rfl, rfl⟩
      · rw [if_neg hb] at h0
        exact ih (iter + 1) h0
  exact this fuel 0 h

/-- A concrete sampling oracle whose first sample measures 50 MACs. -/
def sampleOracle50 : SampleOracle :=
  { sample_model := fun _ _ => baseModel3, macs := fun _ => 50 }

/-- C3 witness: the theorem applied to a concrete oracle whose first sample
already satisfies the bounds. -/
theorem random_sample_bounds_witness :
    cfgDefault.min_mac <
        sampleOracle50.macs (mkSampleMeta cfgDefault sampleOracle50 baseModel3).arch ∧
      sampleOracle50.macs (mkSampleMeta cfgDefault sampleOracle50 baseModel3).arch <
        cfgDefault.max_mac ∧
      (mkSampleMeta cfgDefault sampleOracle50 baseModel3).macs =
        some (sampleOracle50.macs (mkSampleMeta cfgDefault sampleOracle50 baseModel3).arch) ∧
      (mkSampleMeta cfgDefault sampleOracle50 baseModel3).parent = none :=
  random_sample_bounds cfgDefault sampleOracle50 (fun _ => 3) 1
    (mkSampleMeta cfgDefault sampleOracle50 baseModel3) (by rfl)

/-! ### `crossover`

```python
left_m, right_m = random.sample([model_1, model_2], 2)
left_g, right_g = [list(m.arch.graph.values()) for m in [left_m, right_m]]
left_g, right_g = rename_dag_node_list(left_g, 'left'), rename_dag_node_list(right_g, 'right')
left_n, right_n = [[n['name'] for n in g] for g in [left_g, right_g]]
if len(left_n) <= 2 or len(right_n) <= 2:
    return
result_g, nb_tries = None, 0
while result_g is None and nb_tries < patience:
    nb_tries += 1
    left_pivot_idx = random.randint(1, len(left_n) - 2)
    right_candidates = [i for i, fields in enumerate(right_g)
                        if fields['scale'] == left_g[left_pivot_idx]['scale']
                        and 0 < i < (len(right_n) - 1)]
    if len(right_candidates) > 0:
        ... splice, repair, rename ...
if result_g:
    ... load_from_graph, stamp dual-parent lineage ...
```
Draws: `swap` picks which parent is left, `leftPivot t` is the pivot draw of
attempt `t` (folded into `[1, len-2]`), `rightChoice t` the
`random.choice(right_candidates)` index, `repairChoice t j` the
`random.choice(candidates)` index for the `j`-th input of the `t`-th
right-half node, `chSwap`/`postSwap` the two final `random.choice` draws
over the parents. -/

structure CrossoverDraws where
  swap : Bool
  leftPivot : Nat → Nat
  rightChoice : Nat → Nat
  repairChoice : Nat → Nat → Nat
  chSwap : Bool
  postSwap : Bool

/-- The dict `{node: i for i, node in enumerate(right_n)}`: index of the
last occurrence. -/
def lastIdxOf : List String → String → Option Nat
  | [], _ => none
  | x :: rest, v =>
    match lastIdxOf rest v with
    | some i => some (i + 1)
    | none => if x = v then some 0 else none

/-- `right_candidates`: interior right-graph positions whose node shares the
left pivot's scale. -/
def rightCandidates (left_g right_g : List Node) (lp : Nat) : List Nat :=
  (List.range right_g.length).filter (fun i =>
    (right_g.getD i default).scale = (left_g.getD lp default).scale ∧
      0 < i ∧ i < right_g.length - 1)

/-- `left_pivot_idx = random.randint(1, len(left_n) - 2)` of attempt `t`. -/
def crossoverPivot (left_g : List Node) (d : CrossoverDraws) (t : Nat) : Nat :=
  1 + d.leftPivot t % (left_g.length - 2)

/-- Repair of one input entry of a right-half node: a reference pointing
outside `right_n[right_pivot_idx:]` is replaced by a random left-half node
of the same scale (`None` when no candidate exists); a `None` entry makes
`right_node2idx[None]` raise `KeyError`, as does a reference to a name
absent from the right graph. -/
def repairInput (left_half right_g : List Node) (right_n : List String)
    (rp : Nat) (choice : Nat) (inp : Option String) :
    Except PyErr (Option String) :=
  match inp with
  | none => .error .keyError
  | some s =>
    if s ∈ right_n.drop rp then .ok (some s)
    else
      match lastIdxOf right_n s with
      | none => .error .keyError
      | some si =>
        if 0 < ((left_half.filter
            (fun n => n.scale = (right_g.getD si default).scale)).map
              (fun n => n.name)).length then
          .ok (some (((left_half.filter
            (fun n => n.scale = (right_g.getD si default).scale)).map
              (fun n => n.name)).getD
            (choice % ((left_half.filter
              (fun n => n.scale = (right_g.getD si default).scale)).map
                (fun n => n.name)).length) ""))
        else .ok none

/-- Index-passing exception-propagating map (the meaning of the Python
`for`-loops with `enumerate` over the right half and over a node's inputs:
stop at the first raised exception). -/
def mapEIdx (f : Nat → α → Except PyErr β) : Nat → List α → Except PyErr (List β)
  | _, [] => .ok []
  | i, a :: rest =>
    match f i a with
    | .error e => .error e
    | .ok b =>
      match mapEIdx f (i + 1) rest with
      | .error e => .error e
      | .ok bs => .ok (b :: bs)

theorem mapEIdx_ok_length {f : Nat → α → Except PyErr β} :
    ∀ {i : Nat} {l : List α} {l' : List β}, mapEIdx f i l = .ok l' →
      l'.length = l.length := by
  intro i l
  induction l generalizing i with
  | nil => intro l' h; simp [mapEIdx] at h; rw [h]; rfl
  | cons a rest ih =>
    intro l' h
    rw [mapEIdx] at h
    cases hf : f i a with
    | error e => rw [hf] at h; exact Except.noConfusion h
    | ok b =>
      rw [hf] at h
      cases hr : mapEIdx f (i + 1) rest with
      | error e => rw [hr] at h; exact Except.noConfusion h
      | ok bs =>
        rw [hr] at h
        have hb : b :: bs = l' := by
          have := h; injection this
        rw [← hb]
        simp [ih hr]

theorem mapEIdx_ok_getD [Inhabited α] [Inhabited β] {f : Nat → α → Except PyErr β} :
    ∀ {i : Nat} {l : List α} {l' : List β}, mapEIdx f i l = .ok l' →
      ∀ t, t < l.length → f (i + t) (l.getD t default) = .ok (l'.getD t default) := by
  intro i l
  induction l generalizing i with
  | nil => intro l' _ t ht; simp at ht
  | cons a rest ih =>
    intro l' h t ht
    rw [mapEIdx] at h
    cases hf : f i a with
    | error e => rw [hf] at h; exact Except.noConfusion h
    | ok b =>
      rw [hf] at h
      cases hr : mapEIdx f (i + 1) rest with
      | error e => rw [hr] at h; exact Except.noConfusion h
      | ok bs =>
        rw [hr] at h
        have hb : b :: bs = l' := by injection h
        rw [← hb]
        cases t with
        | zero => simpa using hf
        | succ t' =>
          simp only [List.getD_cons_succ]
          have := ih hr t' (by simpa using ht)
          have harith : i + 1 + t' = i + (t' + 1) := by omega
          rw [harith] at this
          exact this

theorem mapEIdx_ok_mem {f : Nat → α → Except PyErr β} :
    ∀ {i : Nat} {l : List α} {l' : List β}, mapEIdx f i l = .ok l' →
      ∀ b ∈ l', ∃ j a, a ∈ l ∧ f j a = .ok b := by
  intro i l
  induction l generalizing i with
  | nil => intro l' h b hb; simp [mapEIdx] at h; rw [h] at hb; simp at hb
  | cons a rest ih =>
    intro l' h b hb
    rw [mapEIdx] at h
    cases hf : f i a with
    | error e => rw [hf] at h; exact Except.noConfusion h
    | ok b₀ =>
      rw [hf] at h
      cases hr : mapEIdx f (i + 1) rest with
      | error e => rw [hr] at h; exact Except.noConfusion h
      | ok bs =>
        rw [hr] at h
        have hb' : b₀ :: bs = l' := by injection h
        rw [← hb'] at hb
        rcases List.mem_cons.mp hb with rfl | hmem
        · exact ⟨i, a, List.mem_cons_self _ _, hf⟩
        · obtain ⟨j, a', ha', hfa⟩ := ih hr b hmem
          exact ⟨j, a', List.mem_cons_of_mem _ ha', hfa⟩

/-- Repair of all inputs of the `t`-th right-half node. -/
def repairNode (left_half right_g : List Node) (right_n : List String)
    (rp : Nat) (rc : Nat → Nat → Nat) (t : Nat) (node : Node) :
    Except PyErr Node :=
  match mapEIdx (fun j inp =>
      repairInput left_half right_g right_n rp (rc t j) inp) 0 node.inputs with
  | .error e => .error e
  | .ok inputs' => .ok { node with inputs := inputs' }

/-- `right_half[-1]['name'] = 'output'`. -/
def renameEndNode (l : List Node) : List Node :=
  l.set (l.length - 1) { l.getD (l.length - 1) default with name := "output" }

/-- Append `left_pivot` to the first right-half node's inputs if absent. -/
def connectSplice (lpName : String) : List Node → List Node
  | [] => []
  | first :: rest =>
    (if some lpName ∈ first.inputs then first
     else { first with inputs := first.inputs ++ [some lpName] }) :: rest

/-- One successful-pivot iteration: split at the pivots, repair the
right half, force its end node to `output`, connect the splice point, and
canonicalise the merged sequence with the node renamer. -/
def mergeAttempt (left_g right_g : List Node) (right_n : List String)
    (lp rp : Nat) (rc : Nat → Nat → Nat) : Except PyErr (List Node) :=
  match mapEIdx (repairNode (left_g.take (lp + 1)) right_g right_n rp rc) 0
      (right_g.drop rp) with
  | .error e => .error e
  | .ok repaired =>
    .ok (rename_dag_node_list
      (left_g.take (lp + 1) ++
        connectSplice (left_g.getD lp default).name (renameEndNode repaired))
      "" true true)

/-- The `while result_g is None and nb_tries < patience` loop (`t` is
`nb_tries`, the second argument the remaining budget). -/
def crossover_loop (left_g right_g : List Node) (right_n : List String)
    (d : CrossoverDraws) : Nat → Nat → Except PyErr (Option (List Node))
  | _, 0 => .ok none
  | t, rem + 1 =>
    if 0 < (rightCandidates left_g right_g (crossoverPivot left_g d t)).length then
      match mergeAttempt left_g right_g right_n (crossoverPivot left_g d t)
          ((rightCandidates left_g right_g (crossoverPivot left_g d t)).getD
            (d.rightChoice t %
              (rightCandidates left_g right_g (crossoverPivot left_g d t)).length) 0)
          d.repairChoice with
      | .error e => .error e
      | .ok g => .ok (some g)
    else crossover_loop left_g right_g right_n d (t + 1) rem

/-- `left_m, right_m = random.sample([model_1, model_2], 2)`. -/
def crossoverParents (m1 m2 : ArchMeta) (d : CrossoverDraws) :
    ArchMeta × ArchMeta :=
  if d.swap then (m2, m1) else (m1, m2)

def crossoverLeftG (m1 m2 : ArchMeta) (d : CrossoverDraws) : List Node :=
  rename_dag_node_list (crossoverParents m1 m2 d).1.arch.graph "left" true false

def crossoverRightG (m1 m2 : ArchMeta) (d : CrossoverDraws) : List Node :=
  rename_dag_node_list (crossoverParents m1 m2 d).2.arch.graph "right" true false

/-- `if result_g:` — rebuild through `load_from_graph` (the
`SegmentationNasModel` constructor can raise) and stamp the dual-parent
lineage `left_archid,right_archid`. -/
def crossoverFinish (cfg : SearchSpaceCfg) (o : CompilerOracle)
    (m1 m2 : ArchMeta) (d : CrossoverDraws) (g : List Node) :
    Except PyErr (Option ArchMeta) :=
  match o.construct g
    { base_channels := (if d.chSwap then (crossoverParents m1 m2 d).2
        else (crossoverParents m1 m2 d).1).arch.channels_per_scale.base_channels
      delta_channels := (if d.chSwap then (crossoverParents m1 m2 d).2
        else (crossoverParents m1 m2 d).1).arch.channels_per_scale.delta_channels
      mult_delta := (if d.chSwap then (crossoverParents m1 m2 d).2
        else (crossoverParents m1 m2 d).1).arch.channels_per_scale.mult_delta }
    (if d.postSwap then (crossoverParents m1 m2 d).2
      else (crossoverParents m1 m2 d).1).arch.post_upsample_layers
    cfg.img_size with
  | none => .error .structuralError
  | some model =>
    .ok (some { arch := model, datasetname := cfg.datasetname,
                archid := model.hashStr, parent := none,
                parents := some ((crossoverParents m1 m2 d).1.archid ++ "," ++
                  (crossoverParents m1 m2 d).2.archid),
                macs := none })

def crossover (cfg : SearchSpaceCfg) (o : CompilerOracle) (m1 m2 : ArchMeta)
    (d : CrossoverDraws) (patience : Nat) : Except PyErr (Option ArchMeta) :=
  if ((crossoverLeftG m1 m2 d).map (fun n => n.name)).length ≤ 2 ∨
      ((crossoverRightG m1 m2 d).map (fun n => n.name)).length ≤ 2 then .ok none
  else
    match crossover_loop (crossoverLeftG m1 m2 d) (crossoverRightG m1 m2 d)
        ((crossoverRightG m1 m2 d).map (fun n => n.name)) d 0 patience with
    | .error e => .error e
    | .ok none => .ok none
    | .ok (some g) => crossoverFinish cfg o m1 m2 d g

theorem crossoverFinish_ne_ok_none (cfg : SearchSpaceCfg) (o : CompilerOracle)
    (m1 m2 : ArchMeta) (d : CrossoverDraws) (g : List Node) :
    crossoverFinish cfg o m1 m2 d g ≠ .ok none := by
  rw [crossoverFinish]
  cases o.construct g
    { base_channels := (if d.chSwap then (crossoverParents m1 m2 d).2
        else (crossoverParents m1 m2 d).1).arch.channels_per_scale.base_channels
      delta_channels := (if d.chSwap then (crossoverParents m1 m2 d).2
        else (crossoverParents m1 m2 d).1).arch.channels_per_scale.delta_channels
      mult_delta := (if d.chSwap then (crossoverParents m1 m2 d).2
        else (crossoverParents m1 m2 d).1).arch.channels_per_scale.mult_delta }
    (if d.postSwap then (crossoverParents m1 m2 d).2
      else (crossoverParents m1 m2 d).1).arch.post_upsample_layers
    cfg.img_size <;> simp

/-- The loop yields `none` exactly when every attempt found an empty
right-candidate list. -/
theorem crossover_loop_none_iff (left_g right_g : List Node)
    (right_n : List String) (d : CrossoverDraws) :
    ∀ (rem t : Nat),
      crossover_loop left_g right_g right_n d t rem = .ok none ↔
        (∀ u, t ≤ u → u < t + rem →
          rightCandidates left_g right_g (crossoverPivot left_g d u) = []) := by
  intro rem
  induction rem with
  | zero =>
    intro t
    constructor
    · intro _ u h1 h2; omega
    · intro _; rfl
  | succ r ih =>
    intro t
    rw [crossover_loop]
    by_cases hc :
        0 < (rightCandidates left_g right_g (crossoverPivot left_g d t)).length
    · rw [if_pos hc]
      constructor
      · intro h
        exfalso
        cases hm : mergeAttempt left_g right_g right_n (crossoverPivot left_g d t)
            ((rightCandidates left_g right_g (crossoverPivot left_g d t)).getD
              (d.rightChoice t %
                (rightCandidates left_g right_g (crossoverPivot left_g d t)).length) 0)
            d.repairChoice with
        | error e => rw [hm] at h; exact Except.noConfusion h
        | ok g =>
          rw [hm] at h
          simp at h
      · intro hall
        exfalso
        have := hall t (le_refl t) (by omega)
        rw [this] at hc
        simp at hc
    · rw [if_neg hc]
      rw [ih (t + 1)]
      constructor
      · intro h u h1 h2
        by_cases hu : u = t
        · subst hu
          exact List.length_eq_zero.mp (by omega)
        · exact h u (by omega) (by omega)
      · intro h u h1 h2
        exact h u (by omega) (by omega)

/-- C5 theorem: `crossover` yields no result (as a value, not an exception)
in exactly two situations — immediately when either parent's graph has at
most 2 nodes, or when every one of the `patience` attempts found no
interior right-graph pivot sharing the left pivot's scale. -/
theorem crossover_none_iff (cfg : SearchSpaceCfg) (o : CompilerOracle)
    (m1 m2 : ArchMeta) (d : CrossoverDraws) (patience : Nat) :
    crossover cfg o m1 m2 d patience = .ok none ↔
      (m1.arch.graph.length ≤ 2 ∨ m2.arch.graph.length ≤ 2) ∨
        (∀ t, t < patience →
          rightCandidates (crossoverLeftG m1 m2 d) (crossoverRightG m1 m2 d)
            (crossoverPivot (crossoverLeftG m1 m2 d) d t) = []) := by
  have hL : (crossoverLeftG m1 m2 d).length =
      (crossoverParents m1 m2 d).1.arch.graph.length := by
    rw [crossoverLeftG, rename_length]
  have hR : (crossoverRightG m1 m2 d).length =
      (crossoverParents m1 m2 d).2.arch.graph.length := by
    rw [crossoverRightG, rename_length]
  have hdeg : ((crossoverLeftG m1 m2 d).length ≤ 2 ∨
      (crossoverRightG m1 m2 d).length ≤ 2) ↔
      (m1.arch.graph.length ≤ 2 ∨ m2.arch.graph.length ≤ 2) := by
    rw [hL, hR, crossoverParents]
    cases hs : d.swap <;> simp <;> exact Or.comm
  rw [crossover]
  by_cases hd : ((crossoverLeftG m1 m2 d).map (fun n => n.name)).length ≤ 2 ∨
      ((crossoverRightG m1 m2 d).map (fun n => n.name)).length ≤ 2
  · rw [if_pos hd]
    simp only [List.length_map] at hd
    constructor
    · intro _; exact Or.inl (hdeg.mp hd)
    · intro _; rfl
  · rw [if_neg hd]
    simp only [List.length_map] at hd
    have hdeg' : ¬ (m1.arch.graph.length ≤ 2 ∨ m2.arch.graph.length ≤ 2) :=
      fun h => hd (hdeg.mpr h)
    cases hl : crossover_loop (crossoverLeftG m1 m2 d) (crossoverRightG m1 m2 d)
        ((crossoverRightG m1 m2 d).map (fun n => n.name)) d 0 patience with
    | error e =>
      constructor
      · intro h; exact absurd h (by simp)
      · intro h
        rcases h with h | h
        · exact absurd h hdeg'
        · have := (crossover_loop_none_iff (crossoverLeftG m1 m2 d) (crossoverRightG m1 m2 d) ((crossoverRightG m1 m2 d).map (fun n => n.name)) d patience 0).mpr
            (fun u _ h2 => h u (by omega))
          rw [hl] at this
          exact Except.noConfusion this
    | ok og =>
      cases og with
      | none =>
        constructor
        · intro _
          refine Or.inr (fun t ht => ?_)
          exact (crossover_loop_none_iff (crossoverLeftG m1 m2 d) (crossoverRightG m1 m2 d) ((crossoverRightG m1 m2 d).map (fun n => n.name)) d patience 0).mp hl t (by omega)
            (by omega)
        · intro _; rfl
      | some g =>
        constructor
        · intro h
          exact absurd h (crossoverFinish_ne_ok_none cfg o m1 m2 d g)
        · intro h
          rcases h with h | h
          · exact absurd h hdeg'
          · have := (crossover_loop_none_iff (crossoverLeftG m1 m2 d) (crossoverRightG m1 m2 d) ((crossoverRightG m1 m2 d).map (fun n => n.name)) d patience 0).mpr
              (fun u _ h2 => h u (by omega))
            rw [hl] at this
            exact absurd this (by simp)

/-! ### DAG invariants (C4) -/

/-- Every node's truthy inputs reference only strictly earlier nodes
(the index-ordering acyclicity invariant of the spec). -/
def strictRefs (g : List Node) : Prop :=
  ∀ i ∈ List.range g.length, ∀ inp ∈ (g.getD i default).inputs,
    pyTruthy inp = true →
      ∃ j ∈ List.range i, (g.getD j default).name = optStr inp

/-- Every inputs entry is a non-empty string (no Python `None`, no `''`). -/
def allTruthy (g : List Node) : Prop :=
  ∀ nd ∈ g, ∀ inp ∈ nd.inputs, pyTruthy inp = true

theorem pyTruthy_some {s : String} (h : s ≠ "") : pyTruthy (some s) = true := by
  simp [pyTruthy, h]

/-- A survivor of `renameInputs` is the image under the map of a truthy
entry of the original list. -/
theorem renameInputs_mem {m : List (String × String)}
    {inputs : List (Option String)} {inp : Option String}
    (h : inp ∈ renameInputs m inputs) :
    ∃ (s v : String), some s ∈ inputs ∧ s ≠ "" ∧ alookup m s = some v ∧
      inp = some v := by
  rw [renameInputs] at h
  by_cases hemp : inputs = []
  · rw [hemp] at h; simp at h
  · simp only [hemp, if_false] at h
    obtain ⟨inp₀, hmem, hmap⟩ := List.mem_filterMap.mp h
    by_cases ht : pyTruthy inp₀
    · simp only [ht, if_true] at hmap
      obtain ⟨v, hv, hvv⟩ := Option.map_eq_some'.mp hmap
      cases inp₀ with
      | none => simp [pyTruthy] at ht
      | some s =>
        refine ⟨s, v, hmem, ?_, ?_, hvv.symm⟩
        · intro hs; rw [hs] at ht; simp [pyTruthy] at ht
        · simpa [optStr] using hv
    · simp [ht] at hmap

/-- Positional strictness through `renameLoop`.  `K` holds of the old names
of already-processed nodes, `V` of their new names; inputs of the remaining
nodes reference processed nodes (`K`) or strictly earlier remaining nodes,
and then every surviving rewritten input is a processed node's new name
(`V`) or the new name of a strictly earlier output node. -/
theorem renameLoop_strict (pfx : String) (add_io : Bool) (total : Nat) :
    ∀ (L : List Node) (i : Nat) (m : List (String × String))
      (K V : String → Prop),
      (∀ k v, alookup m k = some v → V v) →
      (∀ k, K k → (alookup m k).isSome = true) →
      (∀ u ∈ List.range L.length, ∀ inp ∈ (L.getD u default).inputs,
        pyTruthy inp = true →
          K (optStr inp) ∨
            ∃ w ∈ List.range u, (L.getD w default).name = optStr inp) →
      ∀ u ∈ List.range (renameLoop pfx add_io total L i m).length,
        ∀ inp ∈ ((renameLoop pfx add_io total L i m).getD u default).inputs,
          ∃ v, inp = some v ∧
            (V v ∨ ∃ w ∈ List.range u,
              ((renameLoop pfx add_io total L i m).getD w default).name = v) := by
  intro L
  induction L with
  | nil =>
    intro i m K V I1 I2 HL u hu
    simp [renameLoop] at hu
  | cons node rest ih =>
    intro i m K V I1 I2 HL u hu inp hinp
    cases hm : alookup m node.name with
    | some v0 =>
      have heq : renameLoop pfx add_io total (node :: rest) i m =
          { node with inputs := renameInputs m node.inputs } ::
            renameLoop pfx add_io total rest (i + 1) m := by
        rw [renameLoop, hm]
      rw [heq] at hu hinp ⊢
      cases u with
      | zero =>
        simp only [List.getD_cons_zero] at hinp
        obtain ⟨s, v, hsmem, hsne, hlk, rfl⟩ := renameInputs_mem hinp
        exact ⟨v, rfl, Or.inl (I1 s v hlk)⟩
      | succ u' =>
        simp only [List.getD_cons_succ] at hinp
        have hulen := List.mem_range.mp hu
        simp only [List.length_cons] at hulen
        have hu' : u' ∈ List.range (renameLoop pfx add_io total rest (i + 1) m).length :=
          List.mem_range.mpr (by omega)
        have hrec := ih (i + 1) m (fun k => K k ∨ k = node.name)
          (fun v => V v ∨ v = node.name)
          (fun k v hkv => Or.inl (I1 k v hkv))
          (fun k hk => by
            rcases hk with hk | rfl
            · exact I2 k hk
            · rw [hm]; rfl)
          (fun w hw inp2 hinp2 htr => by
            have hwlen := List.mem_range.mp hw
            have hw1 : w + 1 ∈ List.range (node :: rest).length :=
              List.mem_range.mpr (by simp; omega)
            have hHL := HL (w + 1) hw1 inp2 (by simpa using hinp2) htr
            rcases hHL with hK | ⟨w2, hw2, hname⟩
            · exact Or.inl (Or.inl hK)
            · have hw2' := List.mem_range.mp hw2
              cases w2 with
              | zero =>
                refine Or.inl (Or.inr ?_)
                simp only [List.getD_cons_zero] at hname
                exact hname.symm
              | succ w2' =>
                refine Or.inr ⟨w2', List.mem_range.mpr (by omega), ?_⟩
                simpa using hname)
          u' hu' inp hinp
        obtain ⟨v, rfl, hcase⟩ := hrec
        refine ⟨v, rfl, ?_⟩
        rcases hcase with (hV | rfl) | ⟨w, hw, hname⟩
        · exact Or.inl hV
        · refine Or.inr ⟨0, List.mem_range.mpr (by omega), ?_⟩
          simp
        · refine Or.inr ⟨w + 1, List.mem_range.mpr
            (by have := List.mem_range.mp hw; omega), ?_⟩
          simpa using hname
    | none =>
      have heq : renameLoop pfx add_io total (node :: rest) i m =
          { node with
              name := schemeName pfx add_io i total
              inputs := renameInputs
                ((node.name, schemeName pfx add_io i total) :: m) node.inputs } ::
            renameLoop pfx add_io total rest (i + 1)
              ((node.name, schemeName pfx add_io i total) :: m) := by
        rw [renameLoop, hm]
      rw [heq] at hu hinp ⊢
      cases u with
      | zero =>
        simp only [List.getD_cons_zero] at hinp
        obtain ⟨s, v, hsmem, hsne, hlk, rfl⟩ := renameInputs_mem hinp
        rw [alookup_cons] at hlk
        by_cases hself : node.name = s
        · exfalso
          have hHL := HL 0 (List.mem_range.mpr (by simp)) (some s) hsmem
            (pyTruthy_some hsne)
          rcases hHL with hK | ⟨w, hw, _⟩
          · have hsome := I2 (optStr (some s)) hK
            simp only [optStr] at hsome
            rw [← hself, hm] at hsome
            simp at hsome
          · simp at hw
        · rw [if_neg hself] at hlk
          exact ⟨v, rfl, Or.inl (I1 s v hlk)⟩
      | succ u' =>
        simp only [List.getD_cons_succ] at hinp
        have hulen := List.mem_range.mp hu
        simp only [List.length_cons] at hulen
        have hu' : u' ∈ List.range (renameLoop pfx add_io total rest (i + 1)
            ((node.name, schemeName pfx add_io i total) :: m)).length :=
          List.mem_range.mpr (by omega)
        have hrec := ih (i + 1) ((node.name, schemeName pfx add_io i total) :: m)
          (fun k => K k ∨ k = node.name)
          (fun v => V v ∨ v = schemeName pfx add_io i total)
          (fun k v hkv => by
            rw [alookup_cons] at hkv
            by_cases hk : node.name = k
            · rw [if_pos hk] at hkv
              injection hkv with hv
              exact Or.inr hv.symm
            · rw [if_neg hk] at hkv
              exact Or.inl (I1 k v hkv))
          (fun k hk => by
            by_cases hkk : node.name = k
            · rw [alookup_cons, if_pos hkk]; rfl
            · rw [alookup_cons, if_neg hkk]
              rcases hk with hk | rfl
              · exact I2 k hk
              · exact absurd rfl hkk)
          (fun w hw inp2 hinp2 htr => by
            have hwlen := List.mem_range.mp hw
            have hw1 : w + 1 ∈ List.range (node :: rest).length :=
              List.mem_range.mpr (by simp; omega)
            have hHL := HL (w + 1) hw1 inp2 (by simpa using hinp2) htr
            rcases hHL with hK | ⟨w2, hw2, hname⟩
            · exact Or.inl (Or.inl hK)
            · have hw2' := List.mem_range.mp hw2
              cases w2 with
              | zero =>
                refine Or.inl (Or.inr ?_)
                simp only [List.getD_cons_zero] at hname
                exact hname.symm
              | succ w2' =>
                refine Or.inr ⟨w2', List.mem_range.mpr (by omega), ?_⟩
                simpa using hname)
          u' hu' inp hinp
        obtain ⟨v, rfl, hcase⟩ := hrec
        refine ⟨v, rfl, ?_⟩
        rcases hcase with (hV | rfl) | ⟨w, hw, hname⟩
        · exact Or.inl hV
        · refine Or.inr ⟨0, List.mem_range.mpr (by omega), ?_⟩
          simp
        · refine Or.inr ⟨w + 1, List.mem_range.mpr
            (by have := List.mem_range.mp hw; omega), ?_⟩
          simpa using hname

/-! ### Generated-name facts -/

theorem natToString_data (i : Nat) : (natToString i).data = natDigits i := rfl

theorem layerName_ne_empty (p : String) (i : Nat) :
    p ++ "layer_" ++ natToString i ≠ "" := by
  intro h
  have hd := strData_eq_of_eq h
  rw [strData_append, strData_append] at hd
  simp only [List.append_eq_nil] at hd
  exact absurd hd.1.2 (by decide)

theorem layerName_ne_output (p : String) (i : Nat) :
    p ++ "layer_" ++ natToString i ≠ "output" := by
  intro h
  have hd := strData_eq_of_eq h
  rw [strData_append, strData_append, natToString_data] at hd
  have hlen := congrArg List.length hd
  simp [List.length_append] at hlen
  have h1 : 1 ≤ (natDigits i).length := List.length_pos.mpr (natDigits_ne_nil i)
  omega

theorem layerName_ne_input (p : String) (i : Nat) :
    p ++ "layer_" ++ natToString i ≠ "input" := by
  intro h
  have hd := strData_eq_of_eq h
  rw [strData_append, strData_append, natToString_data] at hd
  have hlen := congrArg List.length hd
  simp [List.length_append] at hlen
  have h1 : 1 ≤ (natDigits i).length := List.length_pos.mpr (natDigits_ne_nil i)
  omega

theorem layerName_inj (p : String) {i j : Nat}
    (h : p ++ "layer_" ++ natToString i = p ++ "layer_" ++ natToString j) :
    i = j := by
  have hd := strData_eq_of_eq h
  rw [strData_append, strData_append, strData_append, strData_append] at hd
  have hcancel := List.append_cancel_left hd
  exact natToString_inj (strEq_of_data hcancel)

theorem schemeName_false (p : String) (i t : Nat) :
    schemeName p false i t = p ++ "layer_" ++ natToString i := by
  rw [schemeName]
  simp

theorem schemeName_true_zero (p : String) (t : Nat) :
    schemeName p true 0 t = "input" := by
  rw [schemeName]
  simp

theorem schemeName_true_last (p : String) {t : Nat} (h : 2 ≤ t) :
    schemeName p true (t - 1) t = "output" := by
  rw [schemeName]
  rw [if_pos rfl, if_neg (by omega), if_pos rfl]

theorem schemeName_ne_empty (p : String) (a : Bool) (i t : Nat) :
    schemeName p a i t ≠ "" := by
  rw [schemeName]
  cases a with
  | false => simpa using layerName_ne_empty p i
  | true =>
    simp only [if_pos rfl]
    by_cases h0 : i = 0
    · simp [h0]
    · rw [if_neg h0]
      by_cases hl : i = t - 1
      · simp [hl]
      · rw [if_neg hl]; exact layerName_ne_empty p i

/-! ### Truthiness and positional names through the renamer -/

theorem renameLoop_truthy (pfx : String) (add_io : Bool) (total : Nat) :
    ∀ (L : List Node) (i : Nat) (m : List (String × String)),
      (∀ k v, alookup m k = some v → v ≠ "") →
      ∀ nd ∈ renameLoop pfx add_io total L i m, ∀ inp ∈ nd.inputs,
        pyTruthy inp = true := by
  intro L
  induction L with
  | nil => intro i m _ nd hnd; simp [renameLoop] at hnd
  | cons node rest ih =>
    intro i m hmv nd hnd inp hinp
    cases hm : alookup m node.name with
    | some v0 =>
      have heq : renameLoop pfx add_io total (node :: rest) i m =
          { node with inputs := renameInputs m node.inputs } ::
            renameLoop pfx add_io total rest (i + 1) m := by
        rw [renameLoop, hm]
      rw [heq] at hnd
      rcases List.mem_cons.mp hnd with rfl | hmem
      · obtain ⟨s, v, _, _, hlk, rfl⟩ := renameInputs_mem hinp
        exact pyTruthy_some (hmv s v hlk)
      · exact ih (i + 1) m hmv nd hmem inp hinp
    | none =>
      have heq : renameLoop pfx add_io total (node :: rest) i m =
          { node with
              name := schemeName pfx add_io i total
              inputs := renameInputs
                ((node.name, schemeName pfx add_io i total) :: m) node.inputs } ::
            renameLoop pfx add_io total rest (i + 1)
              ((node.name, schemeName pfx add_io i total) :: m) := by
        rw [renameLoop, hm]
      rw [heq] at hnd
      have hmv' : ∀ k v, alookup ((node.name, schemeName pfx add_io i total) :: m) k
          = some v → v ≠ "" := by
        intro k v hkv
        rw [alookup_cons] at hkv
        by_cases hk : node.name = k
        · rw [if_pos hk] at hkv
          injection hkv with hv
          rw [← hv]
          exact schemeName_ne_empty pfx add_io i total
        · rw [if_neg hk] at hkv
          exact hmv k v hkv
      rcases List.mem_cons.mp hnd with rfl | hmem
      · obtain ⟨s, v, _, _, hlk, rfl⟩ := renameInputs_mem hinp
        exact pyTruthy_some (hmv' s v hlk)
      · exact ih (i + 1) _ hmv' nd hmem inp hinp

/-- A node whose old name is fresh (absent from the map and from every
earlier node) is renamed to the positional scheme name. -/
theorem renameLoop_name_of_fresh (pfx : String) (add_io : Bool) (total : Nat) :
    ∀ (L : List Node) (i : Nat) (m : List (String × String)) (u : Nat),
      u < L.length →
      (∀ w ∈ List.range u, (L.getD w default).name ≠ (L.getD u default).name) →
      alookup m ((L.getD u default).name) = none →
      ((renameLoop pfx add_io total L i m).getD u default).name =
        schemeName pfx add_io (i + u) total := by
  intro L
  induction L with
  | nil => intro i m u hu; simp at hu
  | cons node rest ih =>
    intro i m u hu hfresh hm
    cases u with
    | zero =>
      have hm0 : alookup m node.name = none := by simpa using hm
      have heq : renameLoop pfx add_io total (node :: rest) i m =
          { node with
              name := schemeName pfx add_io i total
              inputs := renameInputs
                ((node.name, schemeName pfx add_io i total) :: m) node.inputs } ::
            renameLoop pfx add_io total rest (i + 1)
              ((node.name, schemeName pfx add_io i total) :: m) := by
        rw [renameLoop, hm0]
      rw [heq]
      simp
    | succ u' =>
      have hu' : u' < rest.length := by simpa using hu
      have hfresh' : ∀ w ∈ List.range u',
          (rest.getD w default).name ≠ (rest.getD u' default).name := by
        intro w hw
        have := hfresh (w + 1)
          (List.mem_range.mpr (by have := List.mem_range.mp hw; omega))
        simpa using this
      have hmt : alookup m ((rest.getD u' default).name) = none := by simpa using hm
      have harith : i + 1 + u' = i + (u' + 1) := by omega
      cases hm2 : alookup m node.name with
      | some v0 =>
        have heq : renameLoop pfx add_io total (node :: rest) i m =
            { node with inputs := renameInputs m node.inputs } ::
              renameLoop pfx add_io total rest (i + 1) m := by
          rw [renameLoop, hm2]
        rw [heq]
        simp only [List.getD_cons_succ]
        rw [ih (i + 1) m u' hu' hfresh' hmt, harith]
      | none =>
        have heq : renameLoop pfx add_io total (node :: rest) i m =
            { node with
                name := schemeName pfx add_io i total
                inputs := renameInputs
                  ((node.name, schemeName pfx add_io i total) :: m) node.inputs } ::
              renameLoop pfx add_io total rest (i + 1)
                ((node.name, schemeName pfx add_io i total) :: m) := by
          rw [renameLoop, hm2]
        rw [heq]
        simp only [List.getD_cons_succ]
        have hne : node.name ≠ (rest.getD u' default).name := by
          have := hfresh 0 (List.mem_range.mpr (by omega))
          simpa using this
        have hmt' : alookup ((node.name, schemeName pfx add_io i total) :: m)
            ((rest.getD u' default).name) = none := by
          rw [alookup_cons, if_neg hne]
          exact hmt
        rw [ih (i + 1) _ u' hu' hfresh' hmt', harith]

/-- With `rename_input_output = True`, strict backward references are
preserved by the renamer. -/
theorem rename_strictRefs (L : List Node) (pfx : String) (add_io : Bool)
    (h : strictRefs L) : strictRefs (rename_dag_node_list L pfx true add_io) := by
  have hconv : rename_dag_node_list L pfx true add_io =
      renameLoop (if pfx = "" then "" else pfx ++ "_") add_io L.length L 0 [] := by
    rw [rename_dag_node_list]
    rfl
  have hmain := renameLoop_strict (if pfx = "" then "" else pfx ++ "_") add_io
    L.length L 0 [] (fun _ => False) (fun _ => False)
    (fun k v hkv => by simp [alookup] at hkv)
    (fun k hk => False.elim hk)
    (fun u hu inp hinp htr => Or.inr (h u hu inp hinp htr))
  intro u hu inp hinp htr
  rw [hconv] at hu hinp ⊢
  obtain ⟨v, rfl, hcase⟩ := hmain u hu inp hinp
  rcases hcase with hF | ⟨w, hw, hname⟩
  · exact hF.elim
  · exact ⟨w, hw, by simpa [optStr] using hname⟩

/-- With `rename_input_output = True`, every surviving inputs entry of the
renamed list is a non-empty string. -/
theorem rename_allTruthy (L : List Node) (pfx : String) (add_io : Bool) :
    allTruthy (rename_dag_node_list L pfx true add_io) := by
  have hconv : rename_dag_node_list L pfx true add_io =
      renameLoop (if pfx = "" then "" else pfx ++ "_") add_io L.length L 0 [] := by
    rw [rename_dag_node_list]
    rfl
  intro nd hnd inp hinp
  rw [hconv] at hnd
  exact renameLoop_truthy _ add_io L.length L 0 []
    (fun k v hkv => by simp [alookup] at hkv) nd hnd inp hinp

/-- With unique source names every node is renamed, to the positional
scheme name. -/
theorem rename_names_nodup (L : List Node) (pfx : String) (add_io : Bool)
    (hnd : (L.map (fun n => n.name)).Nodup) :
    ∀ u, u < L.length →
      ((rename_dag_node_list L pfx true add_io).getD u default).name =
        schemeName (if pfx = "" then "" else pfx ++ "_") add_io u L.length := by
  intro u hu
  have hconv : rename_dag_node_list L pfx true add_io =
      renameLoop (if pfx = "" then "" else pfx ++ "_") add_io L.length L 0 [] := by
    rw [rename_dag_node_list]
    rfl
  have hfresh : ∀ w ∈ List.range u,
      (L.getD w default).name ≠ (L.getD u default).name := by
    intro w hw hcontra
    have hwu := List.mem_range.mp hw
    have hwlen : w < (L.map (fun n => n.name)).length := by simp; omega
    have hulen : u < (L.map (fun n => n.name)).length := by simp; omega
    have heq2 : (L.map (fun n => n.name))[w] = (L.map (fun n => n.name))[u] := by
      simp only [List.getElem_map]
      rw [← List.getD_eq_getElem L default (by omega),
        ← List.getD_eq_getElem L default (by omega)]
      exact hcontra
    have := (List.Nodup.getElem_inj_iff hnd).mp heq2
    omega
  have := renameLoop_name_of_fresh (if pfx = "" then "" else pfx ++ "_") add_io
    L.length L 0 [] u hu hfresh rfl
  rw [hconv]
  simpa using this

/-! ### Indexing helpers for the merge proof -/

theorem getD_take_lt {α : Type _} [Inhabited α] {l : List α} {k u : Nat}
    (h1 : u < k) (h2 : u < l.length) :
    (l.take k).getD u default = l.getD u default := by
  rw [List.getD_eq_getElem _ _ (show u < (l.take k).length by simp; omega),
    List.getD_eq_getElem _ _ h2]
  exact List.getElem_take ..

theorem getD_drop_add {α : Type _} [Inhabited α] {l : List α} {n t : Nat}
    (h : n + t < l.length) :
    (l.drop n).getD t default = l.getD (n + t) default := by
  rw [List.getD_eq_getElem _ _ (show t < (l.drop n).length by simp; omega),
    List.getD_eq_getElem _ _ h]
  exact List.getElem_drop _

theorem getD_set_self' {α : Type _} [Inhabited α] {l : List α} {i : Nat}
    {x : α} (h : i < l.length) : (l.set i x).getD i default = x := by
  rw [List.getD_eq_getElem _ _ (by simpa using h)]
  exact List.getElem_set_self _

theorem getD_set_ne' {α : Type _} [Inhabited α] {l : List α} {i j : Nat}
    {x : α} (h : i ≠ j) : (l.set i x).getD j default = l.getD j default := by
  by_cases hj : j < l.length
  · rw [List.getD_eq_getElem _ _ (by simpa using hj), List.getD_eq_getElem _ _ hj]
    exact List.getElem_set_ne h _
  · rw [List.getD_eq_default _ _ (by simpa using Nat.not_lt.mp hj),
      List.getD_eq_default _ _ (Nat.not_lt.mp hj)]

theorem getD_mem {α : Type _} [Inhabited α] {l : List α} {n : Nat}
    (h : n < l.length) : l.getD n default ∈ l := by
  rw [List.getD_eq_getElem _ _ h]; exact List.getElem_mem _

theorem connectSplice_length (nm : String) (l : List Node) :
    (connectSplice nm l).length = l.length := by
  cases l with
  | nil => rfl
  | cons f r =>
    rw [connectSplice]
    by_cases hc : some nm ∈ f.inputs
    · rw [if_pos hc]
    · rw [if_neg hc]; rfl

theorem connectSplice_name (nm : String) (l : List Node) (t : Nat) :
    ((connectSplice nm l).getD t default).name = (l.getD t default).name := by
  cases l with
  | nil => rfl
  | cons f r =>
    rw [connectSplice]
    by_cases hc : some nm ∈ f.inputs
    · rw [if_pos hc]
    · rw [if_neg hc]
      cases t with
      | zero => rfl
      | succ t' => rfl

theorem connectSplice_inputs_zero {nm : String} {f : Node} {r : List Node}
    {inp : Option String}
    (h : inp ∈ ((connectSplice nm (f :: r)).getD 0 default).inputs) :
    inp ∈ f.inputs ∨ inp = some nm := by
  rw [connectSplice] at h
  by_cases hc : some nm ∈ f.inputs
  · rw [if_pos hc] at h; exact Or.inl h
  · rw [if_neg hc] at h
    simp only [List.getD_cons_zero] at h
    rcases List.mem_append.mp h with h | h
    · exact Or.inl h
    · simp at h; exact Or.inr (by rw [h])

theorem connectSplice_getD_succ (nm : String) (l : List Node) (t : Nat) :
    (connectSplice nm l).getD (t + 1) default = l.getD (t + 1) default := by
  cases l with
  | nil => rfl
  | cons f r =>
    rw [connectSplice]
    by_cases hc : some nm ∈ f.inputs
    · rw [if_pos hc]
    · rw [if_neg hc]; rfl

theorem renameEndNode_length (l : List Node) :
    (renameEndNode l).length = l.length := by
  rw [renameEndNode]; exact List.length_set ..

theorem renameEndNode_getD_ne (l : List Node) (t : Nat) (h : t ≠ l.length - 1) :
    (renameEndNode l).getD t default = l.getD t default := by
  rw [renameEndNode]
  exact getD_set_ne' (fun hc => h hc.symm)

theorem renameEndNode_last_name (l : List Node) (h : l ≠ []) :
    ((renameEndNode l).getD (l.length - 1) default).name = "output" := by
  rw [renameEndNode]
  rw [getD_set_self' (by have := List.length_pos.mpr h; omega)]

theorem renameEndNode_inputs (l : List Node) (t : Nat) (ht : t < l.length) :
    ((renameEndNode l).getD t default).inputs = (l.getD t default).inputs := by
  by_cases hlast : t = l.length - 1
  · subst hlast
    rw [renameEndNode, getD_set_self' (by omega)]
  · rw [renameEndNode_getD_ne l t hlast]

/-! ### Characterisation of the repair step -/

theorem repairInput_ok {lh rg : List Node} {rn : List String} {rp ch : Nat}
    {inp inp' : Option String}
    (h : repairInput lh rg rn rp ch inp = .ok inp') :
    inp' = none ∨
      (∃ s, inp = some s ∧ s ∈ rn.drop rp ∧ inp' = some s) ∨
      (∃ nd, nd ∈ lh ∧ inp' = some nd.name) := by
  cases inp with
  | none => rw [repairInput] at h; exact Except.noConfusion h
  | some s =>
    rw [repairInput] at h
    by_cases hmem : s ∈ rn.drop rp
    · rw [if_pos hmem] at h
      injection h with h'
      exact Or.inr (Or.inl ⟨s, rfl, hmem, h'.symm⟩)
    · rw [if_neg hmem] at h
      cases hidx : lastIdxOf rn s with
      | none => simp only [hidx] at h; exact Except.noConfusion h
      | some si =>
        simp only [hidx] at h
        by_cases hlen : 0 < ((lh.filter
            (fun n => n.scale = (rg.getD si default).scale)).map
              (fun n => n.name)).length
        · rw [if_pos hlen] at h
          injection h with h'
          have hget : ((lh.filter
              (fun n => n.scale = (rg.getD si default).scale)).map
                (fun n => n.name)).getD
              (ch % ((lh.filter
                (fun n => n.scale = (rg.getD si default).scale)).map
                  (fun n => n.name)).length) "" ∈
              ((lh.filter
                (fun n => n.scale = (rg.getD si default).scale)).map
                  (fun n => n.name)) := by
            rw [List.getD_eq_getElem _ _ (Nat.mod_lt _ hlen)]
            exact List.getElem_mem _
          obtain ⟨nd, hnd, hname⟩ := List.mem_map.mp hget
          refine Or.inr (Or.inr ⟨nd, List.mem_of_mem_filter hnd, ?_⟩)
          rw [← h', hname]
        · rw [if_neg hlen] at h
          injection h with h'
          exact Or.inl h'.symm

theorem repairNode_ok {lh rg : List Node} {rn : List String} {rp : Nat}
    {rc : Nat → Nat → Nat} {t : Nat} {node nd' : Node}
    (h : repairNode lh rg rn rp rc t node = .ok nd') :
    nd'.name = node.name ∧ nd'.scale = node.scale ∧
      ∀ inp' ∈ nd'.inputs, ∃ j inp, inp ∈ node.inputs ∧
        repairInput lh rg rn rp (rc t j) inp = .ok inp' := by
  rw [repairNode] at h
  cases hmap : mapEIdx (fun j inp =>
      repairInput lh rg rn rp (rc t j) inp) 0 node.inputs with
  | error e => rw [hmap] at h; exact Except.noConfusion h
  | ok inputs' =>
    rw [hmap] at h
    injection h with h'
    rw [← h']
    refine ⟨rfl, rfl, ?_⟩
    intro inp' hinp'
    obtain ⟨j, inp, hmem, hrep⟩ := mapEIdx_ok_mem hmap inp' hinp'
    exact ⟨j, inp, hmem, hrep⟩

theorem pyTruthy_some_ne {s : String} (h : pyTruthy (some s) = true) : s ≠ "" := by
  intro hs; rw [hs] at h; simp [pyTruthy] at h

instance (g : List Node) : Decidable (strictRefs g) :=
  inferInstanceAs (Decidable (∀ i ∈ List.range g.length,
    ∀ inp ∈ (g.getD i default).inputs, pyTruthy inp = true →
      ∃ j ∈ List.range i, (g.getD j default).name = optStr inp))

instance (g : List Node) : Decidable (allTruthy g) :=
  inferInstanceAs (Decidable (∀ nd ∈ g, ∀ inp ∈ nd.inputs, pyTruthy inp = true))

/-- The merged node list of one successful splice satisfies the graph
invariant: sentinel endpoints and strictly-backward references. -/
theorem mergeAttempt_invariant
    (left_g right_g : List Node)
    (hLs : strictRefs left_g) (hRs : strictRefs right_g)
    (hRt : allTruthy right_g)
    (hLname : ∀ u, u < left_g.length →
      (left_g.getD u default).name = "left_" ++ "layer_" ++ natToString u)
    (hRname : ∀ u, u < right_g.length →
      (right_g.getD u default).name = "right_" ++ "layer_" ++ natToString u)
    (lp rp : Nat) (hlp2 : lp + 2 ≤ left_g.length)
    (hrp1 : 0 < rp) (hrp2 : rp + 1 < right_g.length)
    (rc : Nat → Nat → Nat) (g : List Node)
    (h : mergeAttempt left_g right_g (right_g.map (fun n => n.name)) lp rp rc
      = .ok g) :
    (g.getD 0 default).name = "input" ∧
      (g.getD (g.length - 1) default).name = "output" ∧
      strictRefs g ∧ allTruthy g := by
  rw [mergeAttempt] at h
  cases hrep : mapEIdx (repairNode (left_g.take (lp + 1)) right_g
      (right_g.map (fun n => n.name)) rp rc) 0 (right_g.drop rp) with
  | error e => rw [hrep] at h; exact Except.noConfusion h
  | ok repaired =>
    rw [hrep] at h
    injection h with hg
    set M := left_g.take (lp + 1) ++
      connectSplice (left_g.getD lp default).name (renameEndNode repaired)
      with hMdef
    have hrhlen : repaired.length = right_g.length - rp := by
      rw [mapEIdx_ok_length hrep]; exact List.length_drop ..
    have hrh2 : 2 ≤ repaired.length := by omega
    have hlh : (left_g.take (lp + 1)).length = lp + 1 := by
      rw [List.length_take]; omega
    have hMlen : M.length = (lp + 1) + repaired.length := by
      rw [hMdef, List.length_append, hlh, connectSplice_length,
        renameEndNode_length]
    have hMget_left : ∀ u, u < lp + 1 → M.getD u default = left_g.getD u default := by
      intro u hu
      rw [hMdef, List.getD_append _ _ _ _ (by rw [hlh]; omega)]
      exact getD_take_lt hu (by omega)
    have hMget_right : ∀ t, M.getD (lp + 1 + t) default =
        (connectSplice (left_g.getD lp default).name
          (renameEndNode repaired)).getD t default := by
      intro t
      have hstep := List.getD_append_right (left_g.take (lp + 1))
        (connectSplice (left_g.getD lp default).name (renameEndNode repaired))
        default (lp + 1 + t) (by rw [hlh]; omega)
      rw [hlh] at hstep
      have harr : lp + 1 + t - (lp + 1) = t := by omega
      rw [harr] at hstep
      rw [hMdef]
      exact hstep
    have hrep_get : ∀ t, t < repaired.length →
        repairNode (left_g.take (lp + 1)) right_g
          (right_g.map (fun n => n.name)) rp rc t
          ((right_g.drop rp).getD t default) = .ok (repaired.getD t default) := by
      intro t ht
      have := mapEIdx_ok_getD hrep t (by rw [List.length_drop]; omega)
      simpa using this
    have hrep_name : ∀ t, t < repaired.length →
        (repaired.getD t default).name = (right_g.getD (rp + t) default).name := by
      intro t ht
      have hchar := repairNode_ok (hrep_get t ht)
      rw [hchar.1, getD_drop_add (by omega)]
    have hMstrict : strictRefs M := by
      intro u hu inp hinp htr
      have huM := List.mem_range.mp hu
      by_cases hul : u < lp + 1
      · rw [hMget_left u hul] at hinp
        obtain ⟨j, hj, hjname⟩ := hLs u (List.mem_range.mpr (by omega)) inp hinp htr
        have hjr := List.mem_range.mp hj
        refine ⟨j, hj, ?_⟩
        rw [hMget_left j (by omega)]
        exact hjname
      · obtain ⟨t, rfl⟩ : ∃ t, u = lp + 1 + t := ⟨u - (lp + 1), by omega⟩
        have htlen : t < repaired.length := by rw [hMlen] at huM; omega
        rw [hMget_right t] at hinp
        have hsplit : inp ∈ (repaired.getD t default).inputs ∨
            (t = 0 ∧ inp = some (left_g.getD lp default).name) := by
          cases t with
          | zero =>
            cases hrcase : renameEndNode repaired with
            | nil =>
              exfalso
              have := renameEndNode_length repaired
              rw [hrcase] at this
              simp at this
              omega
            | cons f r =>
              rw [hrcase] at hinp
              rcases connectSplice_inputs_zero hinp with hl | hr
              · left
                have hf : (renameEndNode repaired).getD 0 default = f := by
                  rw [hrcase]; rfl
                have h0 : (renameEndNode repaired).getD 0 default =
                    repaired.getD 0 default :=
                  renameEndNode_getD_ne repaired 0 (by omega)
                rw [← h0, hf]
                exact hl
              · right; exact ⟨rfl, hr⟩
          | succ t' =>
            left
            rw [connectSplice_getD_succ] at hinp
            have hre_inputs := renameEndNode_inputs repaired (t' + 1) (by omega)
            rw [hre_inputs] at hinp
            exact hinp
        rcases hsplit with hrepinp | ⟨rfl, rfl⟩
        · obtain ⟨_, _, hchar⟩ := repairNode_ok (hrep_get t htlen)
          obtain ⟨j, inp0, hinp0mem, hrepi⟩ := hchar inp hrepinp
          rcases repairInput_ok hrepi with rfl | ⟨s, rfl, hsdrop, rfl⟩ | ⟨nd, hnd, rfl⟩
          · simp [pyTruthy] at htr
          · have hnode_eq : (right_g.drop rp).getD t default =
                right_g.getD (rp + t) default := getD_drop_add (by omega)
            rw [hnode_eq] at hinp0mem
            have hsne : s ≠ "" := pyTruthy_some_ne
              (hRt _ (getD_mem (show rp + t < right_g.length by omega))
                (some s) hinp0mem)
            obtain ⟨j2, hj2, hj2name⟩ := hRs (rp + t)
              (List.mem_range.mpr (by omega)) (some s) hinp0mem
              (pyTruthy_some hsne)
            have hj2r := List.mem_range.mp hj2
            have hn1 : (right_g.getD j2 default).name = s := by
              simpa [optStr] using hj2name
            obtain ⟨idx, hidx, heq⟩ := List.mem_iff_getElem.mp hsdrop
            have hidx2 : rp + idx < right_g.length := by
              have := hidx
              simp only [List.length_drop, List.length_map] at this
              omega
            have hn2 : (right_g.getD (rp + idx) default).name = s := by
              have h1 : ((right_g.map (fun n => n.name)).drop rp).getD idx default
                  = s := by
                rw [List.getD_eq_getElem _ _ hidx]
                exact heq
              have h2 : ((right_g.map (fun n => n.name)).drop rp).getD idx default
                  = (right_g.map (fun n => n.name)).getD (rp + idx) default :=
                getD_drop_add (by simp only [List.length_map]; omega)
              rw [h2] at h1
              rw [List.getD_eq_getElem _ _
                  (by simp only [List.length_map]; omega : rp + idx <
                    (right_g.map (fun n => n.name)).length),
                List.getElem_map] at h1
              rw [List.getD_eq_getElem _ _ hidx2]
              exact h1
            have hj2eq : j2 = rp + idx := by
              have ha := hRname j2 (by omega)
              have hb := hRname (rp + idx) (by omega)
              rw [ha] at hn1
              rw [hb] at hn2
              exact layerName_inj ("right_") (hn1.trans hn2.symm)
            have hidxt : idx < t := by omega
            refine ⟨lp + 1 + idx, List.mem_range.mpr (by omega), ?_⟩
            rw [hMget_right idx, connectSplice_name,
              renameEndNode_getD_ne repaired idx (by omega),
              hrep_name idx (by omega), hn2]
            simp [optStr]
          · obtain ⟨w, hwlt, hweq⟩ := List.mem_iff_getElem.mp hnd
            have hwlp : w < lp + 1 := by
              have := hwlt
              rw [hlh] at this
              exact this
            refine ⟨w, List.mem_range.mpr (by omega), ?_⟩
            rw [hMget_left w hwlp]
            have hwnode : left_g.getD w default = nd := by
              rw [List.getD_eq_getElem _ _ (by omega : w < left_g.length)]
              rw [← hweq]
              exact (List.getElem_take ..).symm
            rw [hwnode]
            simp [optStr]
        · refine ⟨lp, List.mem_range.mpr (by omega), ?_⟩
          rw [hMget_left lp (by omega)]
          simp [optStr]
    have hconv : rename_dag_node_list M "" true true =
        renameLoop "" true M.length M 0 [] := by
      rw [rename_dag_node_list]
      rfl
    have hglen : g.length = M.length := by
      rw [← hg]; exact rename_length ..
    have hlastM : (M.getD (M.length - 1) default).name = "output" := by
      have harr : M.length - 1 = lp + 1 + (repaired.length - 1) := by omega
      rw [harr, hMget_right, connectSplice_name]
      have hre : ((renameEndNode repaired).getD (repaired.length - 1)
          default).name = "output" :=
        renameEndNode_last_name repaired
          (by intro hcon; rw [hcon] at hrh2; simp at hrh2)
      exact hre
    have hfreshlast : ∀ w ∈ List.range (M.length - 1),
        (M.getD w default).name ≠ (M.getD (M.length - 1) default).name := by
      intro w hw
      rw [hlastM]
      have hwlt := List.mem_range.mp hw
      by_cases hwl : w < lp + 1
      · rw [hMget_left w hwl, hLname w (by omega)]
        exact layerName_ne_output _ w
      · obtain ⟨t, rfl⟩ : ∃ t, w = lp + 1 + t := ⟨w - (lp + 1), by omega⟩
        have htlt : t < repaired.length - 1 := by rw [hMlen] at hwlt; omega
        rw [hMget_right, connectSplice_name,
          renameEndNode_getD_ne repaired t (by omega),
          hrep_name t (by omega), hRname (rp + t) (by omega)]
        exact layerName_ne_output _ (rp + t)
    refine ⟨?_, ?_, ?_, ?_⟩
    · rw [← hg, hconv]
      have h0 := renameLoop_name_of_fresh "" true M.length M 0 [] 0
        (by omega) (by intro w hw; simp at hw) rfl
      rw [h0]
      exact schemeName_true_zero "" M.length
    · rw [← hg, hconv]
      have hrlen : (renameLoop "" true M.length M 0 []).length = M.length :=
        renameLoop_length ..
      rw [hrlen]
      have hlast := renameLoop_name_of_fresh "" true M.length M 0 []
        (M.length - 1) (by omega) hfreshlast rfl
      rw [hlast]
      simp only [Nat.zero_add]
      exact schemeName_true_last "" (by omega)
    · rw [← hg]
      exact rename_strictRefs M "" true hMstrict
    · rw [← hg]
      exact rename_allTruthy M "" true

/-- The merge invariant lifted through the retry loop. -/
theorem crossover_loop_invariant
    (left_g right_g : List Node) (d : CrossoverDraws)
    (hLs : strictRefs left_g) (hRs : strictRefs right_g)
    (hRt : allTruthy right_g)
    (hLname : ∀ u, u < left_g.length →
      (left_g.getD u default).name = "left_" ++ "layer_" ++ natToString u)
    (hRname : ∀ u, u < right_g.length →
      (right_g.getD u default).name = "right_" ++ "layer_" ++ natToString u)
    (hL3 : 3 ≤ left_g.length) (hR3 : 3 ≤ right_g.length) :
    ∀ (rem t : Nat) (g : List Node),
      crossover_loop left_g right_g (right_g.map (fun n => n.name)) d t rem
        = .ok (some g) →
      (g.getD 0 default).name = "input" ∧
        (g.getD (g.length - 1) default).name = "output" ∧
        strictRefs g ∧ allTruthy g := by
  intro rem
  induction rem with
  | zero => intro t g h; simp [crossover_loop] at h
  | succ r ih =>
    intro t g h
    rw [crossover_loop] at h
    by_cases hc : 0 < (rightCandidates left_g right_g
        (crossoverPivot left_g d t)).length
    · rw [if_pos hc] at h
      cases hm : mergeAttempt left_g right_g (right_g.map (fun n => n.name))
          (crossoverPivot left_g d t)
          ((rightCandidates left_g right_g (crossoverPivot left_g d t)).getD
            (d.rightChoice t %
              (rightCandidates left_g right_g (crossoverPivot left_g d t)).length) 0)
          d.repairChoice with
      | error e => rw [hm] at h; exact Except.noConfusion h
      | ok g0 =>
        rw [hm] at h
        have hg0 : g0 = g := by
          injection h with h2
          injection h2
        rw [hg0] at hm
        have hlp1 : 1 ≤ crossoverPivot left_g d t := by
          rw [crossoverPivot]; omega
        have hlp2 : crossoverPivot left_g d t + 2 ≤ left_g.length := by
          rw [crossoverPivot]
          have := Nat.mod_lt (d.leftPivot t)
            (show 0 < left_g.length - 2 by omega)
          omega
        have hrpmem : (rightCandidates left_g right_g
            (crossoverPivot left_g d t)).getD
            (d.rightChoice t %
              (rightCandidates left_g right_g (crossoverPivot left_g d t)).length) 0
            ∈ rightCandidates left_g right_g (crossoverPivot left_g d t) :=
          getD_mem (Nat.mod_lt _ hc)
        have hrpspec := List.mem_filter.mp hrpmem
        have hrpprop := of_decide_eq_true hrpspec.2
        exact mergeAttempt_invariant left_g right_g hLs hRs hRt hLname hRname
          (crossoverPivot left_g d t) _ hlp2 hrpprop.2.1
          (by have := hrpprop.2.2; omega) d.repairChoice g hm
    · rw [if_neg hc] at h
      exact ih (t + 1) g h

/-- C4 theorem: for valid parents (graphs with unique names, truthy inputs
and strictly-backward references — the invariants `SegmentationNasModel`
graphs carry), every merged node list produced by a successful crossover
splice begins with `input`, ends with `output`, and every surviving input
references a strictly earlier node (so the merged graph is acyclic); all
surviving input entries are real references (non-`None`, non-empty). -/
theorem crossover_merged_invariant
    (L0 R0 : List Node)
    (hL3 : 3 ≤ L0.length) (hR3 : 3 ≤ R0.length)
    (hLnd : (L0.map (fun n => n.name)).Nodup)
    (hRnd : (R0.map (fun n => n.name)).Nodup)
    (hLs : strictRefs L0) (hRs : strictRefs R0)
    (d : CrossoverDraws) (t rem : Nat) (g : List Node)
    (h : crossover_loop (rename_dag_node_list L0 "left" true false)
        (rename_dag_node_list R0 "right" true false)
        ((rename_dag_node_list R0 "right" true false).map (fun n => n.name))
        d t rem = .ok (some g)) :
    (g.getD 0 default).name = "input" ∧
      (g.getD (g.length - 1) default).name = "output" ∧
      strictRefs g ∧ allTruthy g := by
  have hLlen : (rename_dag_node_list L0 "left" true false).length = L0.length :=
    rename_length ..
  have hRlen : (rename_dag_node_list R0 "right" true false).length = R0.length :=
    rename_length ..
  have hpl : (if ("left" : String) = "" then "" else "left" ++ "_") = "left_" := by
    decide
  have hpr : (if ("right" : String) = "" then "" else "right" ++ "_") = "right_" := by
    decide
  have hLname : ∀ u, u < (rename_dag_node_list L0 "left" true false).length →
      ((rename_dag_node_list L0 "left" true false).getD u default).name =
        "left_" ++ "layer_" ++ natToString u := by
    intro u hu
    rw [hLlen] at hu
    rw [rename_names_nodup L0 "left" false hLnd u hu, hpl, schemeName_false]
  have hRname : ∀ u, u < (rename_dag_node_list R0 "right" true false).length →
      ((rename_dag_node_list R0 "right" true false).getD u default).name =
        "right_" ++ "layer_" ++ natToString u := by
    intro u hu
    rw [hRlen] at hu
    rw [rename_names_nodup R0 "right" false hRnd u hu, hpr, schemeName_false]
  exact crossover_loop_invariant
    (rename_dag_node_list L0 "left" true false)
    (rename_dag_node_list R0 "right" true false) d
    (rename_strictRefs L0 "left" false hLs)
    (rename_strictRefs R0 "right" false hRs)
    (rename_allTruthy R0 "right" false)
    hLname hRname (by omega) (by omega) rem t g h

/-- Deterministic draws for the crossover witness. -/
def drawsW : CrossoverDraws :=
  { swap := false, leftPivot := fun _ => 0, rightChoice := fun _ => 0,
    repairChoice := fun _ _ => 0, chSwap := false, postSwap := false }

/-- The merged list the witness crossover produces. -/
def mergedW : List Node :=
  [⟨"input", "conv3x3", 1, []⟩,
   ⟨"layer_1", "conv3x3", 1, [some ("input")]⟩,
   ⟨"layer_2", "conv3x3", 1, [some ("input"), some ("layer_1")]⟩,
   ⟨"output", "conv3x3", 1, [some ("layer_2")]⟩]

/-- C4 witness: the theorem applied to two concrete 3-node parents whose
first splice attempt succeeds. -/
theorem crossover_merged_invariant_witness :
    (mergedW.getD 0 default).name = "input" ∧
      (mergedW.getD (mergedW.length - 1) default).name = "output" ∧
      strictRefs mergedW ∧ allTruthy mergedW :=
  crossover_merged_invariant baseGraph3 baseGraph3
    (by decide) (by decide) (by decide) (by decide) (by decide) (by decide)
    drawsW 0 1 mergedW (by rfl)

/-! ### `get_arch_repr` (feature encoder)

```python
graph = arch.arch.graph
scale_levels = [1, 2, 4, 8, 16]
onehot = lambda x, categories: [category == x for category in categories]
x = []
if 'scale' in self.encoder_features:
    x.append([onehot(n['scale'], scale_levels) for n in graph.values()])
if 'op' in self.encoder_features:
    x.append([onehot(n['op'], self.operations) for n in graph.values()])
if 'channels' in self.encoder_features:
    x.append([[ch['base_channels'] / 64, ch['delta_channels'] / 64] ...])
x = torch.cat([torch.tensor(xi, dtype=torch.float) for xi in x], axis=1)
assert len(x.shape) == 2 and x.shape[0] == len(graph), 'Invalid node features'
nodename2idx = {n['name']: i for i, n in enumerate(graph.values())}
edges = [[nodename2idx[v_name], nodename2idx[u['name']]]
         for u in graph.values() if u['inputs'] for v_name in u['inputs']]
edge_index = torch.tensor(edges, dtype=torch.long).T
```
The matrix is a row list of rationals (booleans become `1`/`0` under
`dtype=float`); `none` models a raised exception (`torch.cat` of an empty
list, ragged row counts, a failed shape assertion, or a `KeyError` from
`nodename2idx`).  The returned edge list is the pre-transpose `edges`:
one `[predecessor, successor]` pair per input reference. -/

def onehotInt (x : Int) (categories : List Int) : List Rat :=
  categories.map (fun c => if c = x then 1 else 0)

def onehotStr (x : String) (categories : List String) : List Rat :=
  categories.map (fun c => if c = x then 1 else 0)

/-- `torch.cat(mats, axis=1)`: fails on an empty list or mismatched row
counts. -/
def torchCat1 : List (List (List Rat)) → Option (List (List Rat))
  | [] => none
  | m :: ms => ms.foldl (fun acc mi =>
      match acc with
      | none => none
      | some a =>
        if a.length = mi.length
          then some ((a.zip mi).map (fun p => p.1 ++ p.2)) else none)
    (some m)

/-- The flattened edge comprehension (`nodename2idx` lookups can raise
`KeyError`, modelled as `none`). -/
def edgeListAux (names : List String) :
    List (Option String × String) → Option (List (List Nat))
  | [] => some []
  | (v, un) :: rest =>
    match v with
    | none => none
    | some s =>
      match lastIdxOf names s, lastIdxOf names un with
      | some iv, some iu =>
        match edgeListAux names rest with
        | none => none
        | some es => some ([iv, iu] :: es)
      | _, _ => none

def edgeList (graph : List Node) : Option (List (List Nat)) :=
  edgeListAux (graph.map (fun n => n.name))
    ((graph.filter (fun u => u.inputs ≠ [])).bind
      (fun u => u.inputs.map (fun v => (v, u.name))))

def get_arch_repr (cfg : SearchSpaceCfg) (arch : ArchMeta) :
    Option (List (List Rat) × List (List Nat)) :=
  match torchCat1
    ((if ("scale") ∈ cfg.encoder_features
        then [arch.arch.graph.map (fun n => onehotInt n.scale [1, 2, 4, 8, 16])]
        else []) ++
      (if ("op") ∈ cfg.encoder_features
        then [arch.arch.graph.map (fun n => onehotStr n.op cfg.operations)]
        else []) ++
      (if ("channels") ∈ cfg.encoder_features
        then [arch.arch.graph.map (fun _ =>
          [(arch.arch.channels_per_scale.base_channels : Rat) / 64,
            (arch.arch.channels_per_scale.delta_channels : Rat) / 64])]
        else [])) with
  | none => none
  | some x =>
    -- `assert len(x.shape) == 2 and x.shape[0] == len(graph)`: a per-feature
    -- tensor over an empty graph is 1-dimensional, so the 2-d check also
    -- demands a non-empty graph
    if x.length = arch.arch.graph.length ∧ 0 < arch.arch.graph.length then
      match edgeList arch.arch.graph with
      | none => none
      | some edges => some (x, edges)
    else none

/-- The encoder scenario configuration: feature groups `{scale, op}` and
operator set `['conv', 'pool']`. -/
def cfgEnc : SearchSpaceCfg :=
  { cfgDefault with
      operations := ["conv", "pool"]
      encoder_features := ["scale", "op"] }

def encGraph : List Node :=
  [⟨"input", "conv", 1, []⟩,
   ⟨"layer_0", "conv", 1, [some ("input")]⟩,
   ⟨"output", "conv", 1, [some ("layer_0")]⟩]

def encArch : ArchMeta :=
  { arch := { baseModel3 with graph := encGraph }
    datasetname := "ds", archid := "enc", parent := none, parents := none,
    macs := none }

/-- C8 theorem: on the 3-node graph `[input, layer_0(scale 1, conv),
output]` with feature groups `{scale, op}`, scale ladder `[1,2,4,8,16]` and
operator set `['conv','pool']`, the encoder yields a 3-row, 7-column
feature matrix and exactly the two directed edges implied by the inputs,
each oriented predecessor → successor. -/
theorem get_arch_repr_scenario :
    get_arch_repr cfgEnc encArch = some
      ([[1, 0, 0, 0, 0, 1, 0],
        [1, 0, 0, 0, 0, 1, 0],
        [1, 0, 0, 0, 0, 1, 0]],
       [[0, 1], [1, 2]]) ∧
    (∀ m e, get_arch_repr cfgEnc encArch = some (m, e) →
      m.length = 3 ∧ (∀ row ∈ m, row.length = 7) ∧ e.length = 2) := by
  constructor
  · rfl
  · intro m e h
    have : some
        (([[1, 0, 0, 0, 0, 1, 0],
          [1, 0, 0, 0, 0, 1, 0],
          [1, 0, 0, 0, 0, 1, 0]],
         [[0, 1], [1, 2]]) : List (List Rat) × List (List Nat)) = some (m, e) := by
      rw [← h]; rfl
    injection this with hpair
    have hm : m = [[1, 0, 0, 0, 0, 1, 0],
        [1, 0, 0, 0, 0, 1, 0],
        [1, 0, 0, 0, 0, 1, 0]] := (congrArg Prod.fst hpair).symm
    have he : e = [[0, 1], [1, 2]] := (congrArg Prod.snd hpair).symm
    subst hm; subst he
    refine ⟨rfl, ?_, rfl⟩
    intro row hrow
    rcases List.mem_cons.mp hrow with rfl | hrow
    · rfl
    rcases List.mem_cons.mp hrow with rfl | hrow
    · rfl
    rcases List.mem_cons.mp hrow with rfl | hrow
    · rfl
    · simp at hrow
